import Mathlib

/-!
# Natalie core value runtime: strings, encodings, integers

A shallow embedding of the built-in String, Integer, Float and MatchData
methods of the Natalie runtime (`src/src/string.cpp`,
`src/src/integer_value.cpp`, `src/src/float.cpp`, `src/src/matchdata.cpp`)
together with the properties proved about them.

Conventions of the embedding.

* A byte is a natural number below 256.  A string buffer is a NUL-terminated C
  string; the model holds the bytes that precede the terminator.
* `int64_t` values are integers in `[-2^63, 2^63)`; where the source can leave
  that interval the model reduces with `wrap64` (two's complement).
* A method either returns a value, raises a guest-visible exception of some
  class, or brings the process down (`abort()`, a failed `assert`, a hardware
  trap on undefined arithmetic): see `Result`.
* Loops whose termination is not evident from the source take a fuel argument
  and return `none` when the fuel runs out.
-/

namespace Natalie

/-! ## Data model -/

/-- One byte of a string buffer. -/
abbrev Byte := Nat

/-- The `enum class Encoding` of `encoding_value.hpp`. -/
inductive Encoding
  | ASCII_8BIT
  | UTF_8
  deriving DecidableEq, Repr

/-- A `StringValue`: the bytes of the buffer (`c_str()`, `length()` is the
number of bytes) and the encoding tag. -/
structure StringValue where
  str : List Byte
  encoding : Encoding
  deriving DecidableEq, Repr

/-- An `EncodingValue`: the enum value (`num()`) and the canonical name
followed by the aliases (`names()`). -/
structure EncodingValue where
  num : Encoding
  names : List StringValue
  deriving DecidableEq, Repr

/-- The `OnigRegion` filled in by the pattern engine: `beg[i]`, `end[i]` for
`i < num_regs`. -/
structure OnigRegion where
  beg : List Int
  end_ : List Int
  deriving DecidableEq, Repr

/-- A compiled pattern, seen through its only operation: `search text start`
is the region of the first match at or after byte offset `start`, or `none`
for `ONIG_MISMATCH`.  The engine is an external collaborator. -/
structure RegexpValue where
  search : List Byte → Nat → Option OnigRegion

/-- A `MatchDataValue`: the regions and the private copy (`strdup`) of the
subject string. -/
structure MatchDataValue where
  region : OnigRegion
  str : List Byte
  deriving DecidableEq, Repr

/-- The payload of a `FloatValue`, by IEEE-754 class. -/
inductive Double
  | nan
  | infinity (negative : Bool)
  | finite (negative : Bool) (magnitude : ℚ)
  deriving DecidableEq

/-- The tagged variant `Value` with the kinds the modelled methods inspect. -/
inductive Value
  | nil
  | true_
  | false_
  | integer (n : Int)
  | float (d : Double)
  | string (s : StringValue)
  | symbol (name : List Byte)
  | range (b e : Value) (exclude_end : Bool)
  | regexp (r : RegexpValue)
  | encoding (e : EncodingValue)
  | match_data (m : MatchDataValue)
  | array (xs : List Value)

/-- Exception classes raised by the modelled methods. -/
inductive ErrorClass
  | ArgumentError
  | TypeError
  | ZeroDivisionError
  | UndefinedConversionError
  | ConverterNotFoundError
  | NotImplementedError
  deriving DecidableEq, Repr

/-- Outcome of a method call: a value, a raised exception, or abnormal
termination of the process. -/
inductive Result (α : Type)
  | ok (v : α)
  | raise (cls : ErrorClass)
  | crash
  deriving DecidableEq

/-- The environment a method runs in: the encoding registry returned by
`Encoding_list`, the encoding tag a freshly constructed `StringValue` carries,
and the generic dispatch substrate (`respond_to`, `send`). -/
structure Env where
  encodings : List EncodingValue
  default_encoding : Encoding
  respond_to : Value → String → Bool
  send : Value → String → List Value → Result Value

/-- Two's complement reduction of an integer to the `int64_t` range. -/
def wrap64 (x : Int) : Int := (x + 2 ^ 63) % 2 ^ 64 - 2 ^ 63

/-- The value `INT64_MAX`. -/
def INT64_MAX : Int := 2 ^ 63 - 1

/-- The value `INT64_MIN`. -/
def INT64_MIN : Int := -(2 ^ 63)

namespace StringValue

/-- `new StringValue { env }`: the empty string. -/
def empty (env : Env) : StringValue := ⟨[], env.default_encoding⟩

/-- `new StringValue { env, str, length }`: a fresh string holding the given
bytes. -/
def new (env : Env) (bytes : List Byte) : StringValue := ⟨bytes, env.default_encoding⟩

/-- `length()`: the number of bytes. -/
def length (s : StringValue) : Nat := s.str.length

/-- `append_string` / `append`: the buffer grows by the bytes of the
argument; the tag is kept. -/
def append_string (s : StringValue) (t : StringValue) : StringValue :=
  { s with str := s.str ++ t.str }

/-- `append(env, const char *)`. -/
def append (s : StringValue) (bytes : List Byte) : StringValue :=
  { s with str := s.str ++ bytes }

/-- `truncate(n)`: keep the first `n` bytes. -/
def truncate (s : StringValue) (n : Nat) : StringValue :=
  { s with str := s.str.take n }

/-- `set_encoding`. -/
def set_encoding (s : StringValue) (e : Encoding) : StringValue :=
  { s with encoding := e }

/-- Modelled from the spec: `dup` (defined in `value.cpp`, not among the
sources) "performs a full byte-level copy, never aliasing"; the copy has the
bytes and the tag of the original. -/
def dup (s : StringValue) : StringValue := s

/-- Modelled from the spec: the byte length of the character that starts with
`lead` (`StringValue::chars` is not among the sources).  Under the
byte-oriented encoding every character is one byte; under the multi-byte
encoding `110xxxxx` begins a 2-byte, `1110xxxx` a 3-byte and `11110xxx` a
4-byte character, and every other leading byte is a 1-byte character. -/
def char_width (enc : Encoding) (lead : Byte) : Nat :=
  match enc with
  | .ASCII_8BIT => 1
  | .UTF_8 =>
    if lead / 32 = 6 then 2
    else if lead / 16 = 14 then 3
    else if lead / 8 = 30 then 4
    else 1

/-- Modelled from the spec: character segmentation, scanning the buffer left
to right; a character cut short by the end of the buffer keeps the bytes that
are there.  The fuel is the number of bytes, each character takes at least
one. -/
def chars_loop (enc : Encoding) : Nat → List Byte → List (List Byte)
  | 0, _ => []
  | _, [] => []
  | fuel + 1, b :: bs =>
    (b :: bs.take (char_width enc b - 1)) :: chars_loop enc fuel (bs.drop (char_width enc b - 1))

/-- Modelled from the spec: `chars(env)`, the characters of the string in
order, each a string of its own with the tag of the receiver. -/
def chars (s : StringValue) : List StringValue :=
  (chars_loop s.encoding s.str.length s.str).map (fun c => ⟨c, s.encoding⟩)

end StringValue

/-! ## `String_ref` -/

/-- The loop `for (i = begin; i < end; i++) result->append_string((*chars)[i])`
of `String_ref`, with `count` iterations left.  Indexing past the end of the
vector is abnormal termination. -/
def String_ref_loop (chars : List StringValue) :
    Nat → Nat → StringValue → Result StringValue
  | _, 0, result => .ok result
  | i, count + 1, result =>
    match chars[i]? with
    | some c => String_ref_loop chars (i + 1) count (result.append_string c)
    | none => .crash

/-- `String_ref(self, index_obj)`, the method `String#[]`. -/
def String_ref (env : Env) (self : StringValue) (index_obj : Value) : Result Value :=
  match index_obj with
  | .integer index =>
    let chars := self.chars
    let index := if index < 0 then (chars.length : Int) + index else index
    if index < 0 ∨ index ≥ (chars.length : Int) then .ok .nil
    else
      match chars[index.toNat]? with
      | some c => .ok (.string c)
      | none => .crash
  | .range rb re exclude_end =>
    match rb, re with
    | .integer b, .integer e =>
      let chars := self.chars
      let b := if b < 0 then (chars.length : Int) + b else b
      let e := if e < 0 then (chars.length : Int) + e else e
      if b < 0 ∨ e < 0 then .ok .nil
      else if b ≥ (chars.length : Int) then .ok .nil
      else
        let e := if !exclude_end then wrap64 (e + 1) else e
        let max : Int := chars.length
        let e := if e > max then max else e
        match String_ref_loop chars b.toNat (e - b).toNat (StringValue.empty env) with
        | .ok result => .ok (.string result)
        | .raise cls => .raise cls
        | .crash => .crash
    | _, _ => .raise .TypeError
  | _ => .raise .TypeError

/-! ## `StringValue::index` -/

/-- Whether `needle` is found at the very start of `text`. -/
def starts_with : List Byte → List Byte → Bool
  | _, [] => true
  | [], _ :: _ => false
  | t :: ts, n :: ns => t == n && starts_with ts ns

/-- The left-to-right scan of `index`: `text` is the part of the buffer from
byte offset `off` on. -/
def index_loop (needle : List Byte) : List Byte → Nat → Int
  | [], off => if starts_with [] needle then (off : Int) else -1
  | b :: bs, off =>
    if starts_with (b :: bs) needle then (off : Int) else index_loop needle bs (off + 1)

/-- Modelled from the spec: `StringValue::index(env, needle, start)` (not
among the sources), the "first occurrence scan of a literal substring
starting at a given byte offset", which "returns the -1 sentinel when absent". -/
def StringValue.index (self needle : StringValue) (start : Nat) : Int :=
  index_loop needle.str (self.str.drop start) start

/-! ## `String_sub` -/

/-- Modelled from the spec: `Regexp_match` (`regexp.cpp` is not among the
sources) "delegates search to the external engine; on no match, returns
absent; on match, snapshots the subject string's bytes" and keeps the regions
in a match result. -/
def Regexp_match (r : RegexpValue) (subject : StringValue) : Value :=
  match r.search subject.str 0 with
  | none => .nil
  | some region => .match_data ⟨region, subject.str⟩

/-- Modelled from the spec: the region accessor `MatchDataValue::index(i)`
(declared in `match_data_value.hpp`, defined outside the sources): the begin
offset of region `i`. -/
def MatchDataValue.index (m : MatchDataValue) (i : Nat) : Int := m.region.beg.getD i 0

/-- Modelled from the spec: `MatchDataValue::group(env, i)` (declared in
`match_data_value.hpp`, defined outside the sources): "index 0 returns the
whole-match substring; `1 ≤ index < region_count` returns that capture's
substring; `index ≥ region_count` returns absent"; the substring is the bytes
of the snapshot in `[begin, end)`. -/
def MatchDataValue.group (env : Env) (m : MatchDataValue) (i : Nat) : Value :=
  if i ≥ m.region.beg.length then .nil
  else
    let b := (m.region.beg.getD i 0).toNat
    let e := (m.region.end_.getD i 0).toNat
    .string (StringValue.new env ((m.str.drop b).take (e - b)))

/-- `String_sub(self, sub, repl)`, the method `String#sub`. -/
def String_sub (env : Env) (self : StringValue) (sub repl : Value) : Result Value :=
  match repl with
  | .string repl =>
    match sub with
    | .string sub =>
      let index := self.index sub 0
      if index = -1 then .ok (.string self.dup)
      else
        let out := StringValue.new env (self.str.take index.toNat)
        let out := out.append_string repl
        let out := out.append (self.str.drop (index + sub.length).toNat)
        .ok (.string out)
    | .regexp r =>
      match Regexp_match r self with
      | .nil => .ok (.string self.dup)
      | .match_data m =>
        match m.group env 0 with
        | .string g =>
          let length := g.length
          let index := m.index 0
          let out := StringValue.new env (self.str.take index.toNat)
          let out := out.append_string repl
          let out := out.append (self.str.drop (index + length).toNat)
          .ok (.string out)
        | _ => .crash
      | _ => .crash
    | _ => .raise .TypeError
  | _ => .raise .TypeError

/-! ## `String_split` -/

/-- The `do ... while (index != -1)` loop of the literal branch of
`String_split`, entered with `index != -1`. -/
def String_split_string_loop (env : Env) (self splitter : StringValue) :
    Nat → Int → Int → List Value → Option (List Value)
  | 0, _, _, _ => none
  | fuel + 1, last_index, index, ary =>
    let ary := ary ++ [.string (StringValue.new env
      ((self.str.drop last_index.toNat).take (index - last_index).toNat))]
    let last_index := index + splitter.length
    let index := self.index splitter last_index.toNat
    if index ≠ -1 then String_split_string_loop env self splitter fuel last_index index ary
    else some (ary ++ [.string (StringValue.new env (self.str.drop last_index.toNat))])

/-- The `do ... while (result != ONIG_MISMATCH)` loop of the pattern branch of
`String_split`, entered with the region of a match. -/
def String_split_regexp_loop (env : Env) (self : StringValue) (r : RegexpValue) :
    Nat → Int → OnigRegion → List Value → Option (List Value)
  | 0, _, _, _ => none
  | fuel + 1, last_index, region, ary =>
    let index := region.beg.getD 0 0
    let len := region.end_.getD 0 0 - region.beg.getD 0 0
    let ary := ary ++ [.string (StringValue.new env
      ((self.str.drop last_index.toNat).take (index - last_index).toNat))]
    let last_index := index + len
    match r.search self.str last_index.toNat with
    | some region => String_split_regexp_loop env self r fuel last_index region ary
    | none => some (ary ++ [.string (StringValue.new env (self.str.drop last_index.toNat))])

/-- `String_split(self, splitter)`, the method `String#split`; `none` when the
loop is still running after `fuel` iterations. -/
def String_split (fuel : Nat) (env : Env) (self : StringValue) (splitter : Value) :
    Option (Result Value) :=
  if self.length = 0 then some (.ok (.array []))
  else
    match splitter with
    | .regexp r =>
      match r.search self.str 0 with
      | none => some (.ok (.array [.string self.dup]))
      | some region =>
        (String_split_regexp_loop env self r fuel 0 region []).map (fun ary => .ok (.array ary))
    | .string splitter =>
      let index := self.index splitter 0
      if index = -1 then some (.ok (.array [.string self.dup]))
      else
        (String_split_string_loop env self splitter fuel 0 index []).map
          (fun ary => .ok (.array ary))
    | _ => some (.raise .TypeError)

/-! ## `String_ord`, `String_force_encoding`, `String_encode` -/

/-- `String_ord(self)`, the method `String#ord`. -/
def String_ord (self : StringValue) : Result Value :=
  match self.chars with
  | [] => .raise .ArgumentError
  | c :: _ =>
    match c.str with
    | [b0] => .ok (.integer b0)
    | [b0, b1] => .ok (.integer ((((b0 ^^^ 0xC0) <<< 6) + ((b1 ^^^ 0x80) <<< 0) : Nat) : Int))
    | [b0, b1, b2] =>
      .ok (.integer ((((b0 ^^^ 0xE0) <<< 12) + ((b1 ^^^ 0x80) <<< 6) + ((b2 ^^^ 0x80) <<< 0) : Nat) : Int))
    | [b0, b1, b2, b3] =>
      .ok (.integer ((((b0 ^^^ 0xF0) <<< 18) + ((b1 ^^^ 0x80) <<< 12) + ((b2 ^^^ 0x80) <<< 6)
        + ((b3 ^^^ 0x80) <<< 0) : Nat) : Int))
    | _ => .crash

/-- The `tolower` of the C library in the "C" locale. -/
def tolower (c : Nat) : Nat := if 65 ≤ c ∧ c ≤ 90 then c + 32 else c

/-- `lcase_string(str)`: a copy with every byte lowered. -/
def lcase_string (str : List Byte) : List Byte := str.map tolower

/-- The inner loop of `find_encoding_by_name` over the names of one
encoding. -/
def find_encoding_names_loop (lcase_name : List Byte) : List StringValue → Bool
  | [] => false
  | name_obj :: rest =>
    if lcase_string name_obj.str = lcase_name then true
    else find_encoding_names_loop lcase_name rest

/-- The outer loop of `find_encoding_by_name` over the registry. -/
def find_encoding_list_loop (lcase_name : List Byte) : List EncodingValue → Option EncodingValue
  | [] => none
  | encoding :: rest =>
    if find_encoding_names_loop lcase_name encoding.names then some encoding
    else find_encoding_list_loop lcase_name rest

/-- `find_encoding_by_name(env, name)`. -/
def find_encoding_by_name (env : Env) (name : List Byte) : Result EncodingValue :=
  match find_encoding_list_loop (lcase_string name) env.encodings with
  | some encoding => .ok encoding
  | none => .raise .ArgumentError

/-- `String_force_encoding(self, encoding)`, the method
`String#force_encoding`: the receiver after the call, and the outcome (the
receiver itself on success).  A name that does not resolve raises inside
`find_encoding_by_name`, before `set_encoding` is reached. -/
def String_force_encoding (env : Env) (self : StringValue) (encoding : Value) :
    StringValue × Result Value :=
  match encoding with
  | .encoding e => (self.set_encoding e.num, .ok (.string (self.set_encoding e.num)))
  | .string name =>
    match find_encoding_by_name env name.str with
    | .ok e => (self.set_encoding e.num, .ok (.string (self.set_encoding e.num)))
    | .raise cls => (self, .raise cls)
    | .crash => (self, .crash)
  | _ => (self, .raise .TypeError)

/-- The loop of `String_encode` over the characters of the receiver: the
first character of more than one byte raises, after its code point has been
computed for the message. -/
def String_encode_loop : List StringValue → Result Unit
  | [] => .ok ()
  | char_obj :: rest =>
    if char_obj.length > 1 then
      match String_ord char_obj with
      | .ok _ => .raise .UndefinedConversionError
      | .raise cls => .raise cls
      | .crash => .crash
    else String_encode_loop rest

/-- `String_encode(self, encoding)`, the method `String#encode`: the receiver
after the call, and the outcome.  `String_force_encoding` is applied to the
duplicate, never to the receiver. -/
def String_encode (env : Env) (self : StringValue) (encoding : Value) :
    StringValue × Result Value :=
  let orig_encoding := self.encoding
  let copy := self.dup
  match String_force_encoding env copy encoding with
  | (_, .raise cls) => (self, .raise cls)
  | (_, .crash) => (self, .crash)
  | (copy, .ok _) =>
    if orig_encoding = copy.encoding then (self, .ok (.string copy))
    else if orig_encoding = .UTF_8 ∧ copy.encoding = .ASCII_8BIT then
      match String_encode_loop self.chars with
      | .ok _ => (self, .ok (.string copy))
      | .raise cls => (self, .raise cls)
      | .crash => (self, .crash)
    else if orig_encoding = .ASCII_8BIT ∧ copy.encoding = .UTF_8 then (self, .ok (.string copy))
    else (self, .raise .ConverterNotFoundError)

/-! ## `String_ljust` -/

/-- The `while (copy->length() < length)` loop of `String_ljust`. -/
def String_ljust_loop (length : Nat) (padstr : StringValue) : Nat → StringValue → Option StringValue
  | 0, copy => if copy.length < length then none else some copy
  | fuel + 1, copy =>
    if copy.length < length then
      let truncate : Bool := copy.length + padstr.length > length
      let copy := copy.append_string padstr
      let copy := if truncate then copy.truncate length else copy
      String_ljust_loop length padstr fuel copy
    else some copy

/-- `String_ljust(self, length, padstr = " ")`, the method `String#ljust`;
`none` when the loop is still running after `fuel` iterations. -/
def String_ljust (fuel : Nat) (env : Env) (self : StringValue) (length_obj : Value)
    (pad : Option Value) : Option (Result Value) :=
  match length_obj with
  | .integer n =>
    let length : Nat := if n < 0 then 0 else n.toNat
    let padstr : Result StringValue :=
      match pad with
      | some (.string p) => .ok p
      | some _ => .raise .TypeError
      | none => .ok (StringValue.new env [32])
    match padstr with
    | .ok padstr =>
      (String_ljust_loop length padstr fuel self.dup).map (fun copy => .ok (.string copy))
    | .raise cls => some (.raise cls)
    | .crash => some .crash
  | _ => some (.raise .TypeError)

/-! ## `IntegerValue` -/

namespace IntegerValue

/-- `IntegerValue::div(env, arg)`, the method `Integer#/`.  The quotient of
`INT64_MIN` by `-1` is not representable: the division traps. -/
def div (env : Env) (self : Int) (arg : Value) : Result Value :=
  match arg with
  | .integer divisor =>
    if divisor = 0 then .raise .ZeroDivisionError
    else if self = INT64_MIN ∧ divisor = -1 then .crash
    else .ok (.integer (Int.tdiv self divisor))
  | _ =>
    if env.respond_to arg "coerce" then
      match env.send arg "coerce" [.integer self] with
      | .ok (.array (dividend :: divisor :: _)) => env.send dividend "/" [divisor]
      | .ok _ => .crash
      | .raise cls => .raise cls
      | .crash => .crash
    else .raise .TypeError

/-- `IntegerValue::mod(env, arg)`, the method `Integer#%`.  The source applies
the C++ operator `%` with no test of the divisor: a zero divisor (and
`INT64_MIN % -1`) is undefined and traps. -/
def mod (_env : Env) (self : Int) (arg : Value) : Result Value :=
  match arg with
  | .integer divisor =>
    if divisor = 0 then .crash
    else if self = INT64_MIN ∧ divisor = -1 then .crash
    else .ok (.integer (Int.tmod self divisor))
  | _ => .raise .TypeError

end IntegerValue

/-! ## `double` -/

namespace Double

/-- The rational value of a finite `double` given by sign and magnitude. -/
def value (negative : Bool) (magnitude : ℚ) : ℚ := if negative then -magnitude else magnitude

/-- `is_nan()`. -/
def is_nan : Double → Bool
  | nan => true
  | _ => false

/-- `is_positive_infinity()`. -/
def is_positive_infinity : Double → Bool
  | infinity false => true
  | _ => false

/-- `is_negative_infinity()`. -/
def is_negative_infinity : Double → Bool
  | infinity true => true
  | _ => false

/-- The C++ operator `<` on `double`: false when an operand is NaN, otherwise
the order of the extended reals. -/
def lt : Double → Double → Bool
  | nan, _ => false
  | _, nan => false
  | infinity n1, infinity n2 => n1 && !n2
  | infinity n1, finite _ _ => n1
  | finite _ _, infinity n2 => !n2
  | finite n1 m1, finite n2 m2 => decide (value n1 m1 < value n2 m2)

/-- The C++ operator `==` on `double`: false when an operand is NaN, equality
of the values otherwise (so `0.0 == -0.0`). -/
def eq : Double → Double → Bool
  | nan, _ => false
  | _, nan => false
  | infinity n1, infinity n2 => n1 == n2
  | infinity _, finite _ _ => false
  | finite _ _, infinity _ => false
  | finite n1 m1, finite n2 m2 => decide (value n1 m1 = value n2 m2)

/-- The C++ operator `<=` on `double`. -/
def le (a b : Double) : Bool := lt a b || eq a b

/-- The C++ operator `>` on `double`. -/
def gt (a b : Double) : Bool := lt b a

/-- The C++ operator `>=` on `double`. -/
def ge (a b : Double) : Bool := le b a

/-- The literal `0.0`. -/
def zero : Double := finite false 0

/-- The number of low bits a magnitude has beyond 53 significant bits, at most
`fuel`. -/
def excess_bits : Nat → Nat → Nat
  | 0, _ => 0
  | fuel + 1, m => if m < 2 ^ 53 then 0 else 1 + excess_bits fuel (m / 2)

/-- Rounding of a magnitude below `2^64` to the 53 significant bits of a
`double`, to nearest, ties to even. -/
def round53 (m : Nat) : Nat :=
  if m < 2 ^ 53 then m
  else
    let k := excess_bits 11 m
    let q := m / 2 ^ k
    let r := m % 2 ^ k
    let half := 2 ^ (k - 1)
    (if r > half ∨ (r = half ∧ q % 2 = 1) then q + 1 else q) * 2 ^ k

/-- The conversion of an `int64_t` to `double`, as in
`new FloatValue { env, to_int64_t() }`. -/
def of_int64 (n : Int) : Double := finite (decide (n < 0)) (round53 n.natAbs : ℚ)

/-- The conversion of a `double` to `int64_t`: truncation toward zero,
undefined (`none`) for NaN, the infinities and values out of range. -/
def to_int64 : Double → Option Int
  | finite n m =>
    let t := Int.tdiv (value n m).num (value n m).den
    if INT64_MIN ≤ t ∧ t ≤ INT64_MAX then some t else none
  | _ => none

end Double

/-- The arithmetic of the floating-point unit on `double`, and `::pow` of the
C library: parameters of the model. -/
structure Fpu where
  add : Double → Double → Double
  sub : Double → Double → Double
  mul : Double → Double → Double
  div : Double → Double → Double
  pow : Double → Double → Double

/-! ## `IntegerValue`, continued -/

namespace IntegerValue

/-- `IntegerValue::add(env, arg)`, the method `Integer#+`. -/
def add (_env : Env) (self : Int) (arg : Value) : Result Value :=
  match arg with
  | .integer n => .ok (.integer (wrap64 (self + n)))
  | _ => .raise .TypeError

/-- `IntegerValue::sub(env, arg)`, the method `Integer#-`. -/
def sub (_env : Env) (self : Int) (arg : Value) : Result Value :=
  match arg with
  | .integer n => .ok (.integer (wrap64 (self - n)))
  | _ => .raise .TypeError

/-- `IntegerValue::mul(env, arg)`, the method `Integer#*`. -/
def mul (_env : Env) (self : Int) (arg : Value) : Result Value :=
  match arg with
  | .integer n => .ok (.integer (wrap64 (self * n)))
  | _ => .raise .TypeError

/-- `IntegerValue::pow(env, arg)`, the method `Integer#**`: `::pow` on the
operands converted to `double`, converted back to `int64_t`. -/
def pow (fpu : Fpu) (_env : Env) (self : Int) (arg : Value) : Result Value :=
  match arg with
  | .integer n =>
    match (fpu.pow (Double.of_int64 self) (Double.of_int64 n)).to_int64 with
    | some result => .ok (.integer result)
    | none => .crash
  | _ => .raise .TypeError

/-- `IntegerValue::coerce(env, arg)`, the method `Integer#coerce`.  The String
case is `printf("TODO\n"); abort();`. -/
def coerce (_env : Env) (self : Int) (arg : Value) : Result Value :=
  match arg with
  | .float _ => .ok (.array [arg, .float (Double.of_int64 self)])
  | .integer _ => .ok (.array [arg, .integer self])
  | .string _ => .crash
  | _ => .raise .ArgumentError

end IntegerValue

/-! ## `Float` -/

/-- Modelled from the spec: the helper `coerce(env, rhs, lhs)` of the Float
operators (not among the sources): "invoke the DispatchProtocol's `coerce`
capability on `rhs` with `lhs` as argument.  A successful coercion yields a
pair `(new_lhs, new_rhs)`"; an operand without the capability leaves the pair
as it is (the case of step 4, where `new_rhs` "is still not a numeric kind"),
and a result that is not an array of two values is a kind mismatch, which is
fatal. -/
def coerce (env : Env) (rhs lhs : Value) : Result (Value × Value) :=
  if env.respond_to rhs "coerce" then
    match env.send rhs "coerce" [lhs] with
    | .ok (.array (new_lhs :: new_rhs :: _)) => .ok (new_lhs, new_rhs)
    | .ok _ => .crash
    | .raise cls => .raise cls
    | .crash => .crash
  else .ok (lhs, rhs)

/-- `Float_eql(self, other)`, the method `Float#eql?`. -/
def Float_eql (_env : Env) (self : Double) (other : Value) : Result Value :=
  match other with
  | .float o => if Double.eq o self then .ok .true_ else .ok .false_
  | _ => .ok .false_

/-- `Float_cmp(self, arg)`, the method `Float#<=>`. -/
def Float_cmp (env : Env) (self : Double) (arg : Value) : Result Value :=
  let coerced : Result (Value × Value) :=
    match arg with
    | .float _ => .ok (.float self, arg)
    | _ => coerce env arg (.float self)
  match coerced with
  | .raise cls => .raise cls
  | .crash => .crash
  | .ok (lhs, rhs) =>
    match lhs with
    | .float lhs_d =>
      match rhs with
      | .float rhs_d =>
        if lhs_d.is_nan || rhs_d.is_nan then .ok .nil
        else if Double.lt lhs_d rhs_d then .ok (.integer (-1))
        else if Double.eq lhs_d rhs_d then .ok (.integer 0)
        else .ok (.integer 1)
      | _ => .ok .nil
    | _ => env.send lhs "<=>" [rhs]

/-- `Float_coerce(self, arg)`, the method `Float#coerce`.  The String case is
`printf("TODO\n"); abort();`. -/
def Float_coerce (_env : Env) (self : Double) (arg : Value) : Result Value :=
  match arg with
  | .float _ => .ok (.array [arg, .float self])
  | .integer n => .ok (.array [.float (Double.of_int64 n), .float self])
  | .string _ => .crash
  | _ => .raise .ArgumentError

/-- The common body of `Float_add`, `Float_sub`, `Float_mul` and `Float_div`
up to the arithmetic: coercion of a non-Float argument, delegation when the
left operand is no longer a Float, TypeError when the right operand is still
not a Float; `compute` receives the `double` of the receiver and of the right
operand. -/
def Float_arith (env : Env) (op : String) (compute : Double → Double → Value)
    (self : Double) (arg : Value) : Result Value :=
  let coerced : Result (Value × Value) :=
    match arg with
    | .float _ => .ok (.float self, arg)
    | _ => coerce env arg (.float self)
  match coerced with
  | .raise cls => .raise cls
  | .crash => .crash
  | .ok (lhs, rhs) =>
    match lhs with
    | .float _ =>
      match rhs with
      | .float rhs_d => .ok (compute self rhs_d)
      | _ => .raise .TypeError
    | _ => env.send lhs op [rhs]

/-- `Float_add(self, arg)`, the method `Float#+`. -/
def Float_add (fpu : Fpu) (env : Env) (self : Double) (arg : Value) : Result Value :=
  Float_arith env "+" (fun addend1 addend2 => .float (fpu.add addend1 addend2)) self arg

/-- `Float_sub(self, arg)`, the method `Float#-`. -/
def Float_sub (fpu : Fpu) (env : Env) (self : Double) (arg : Value) : Result Value :=
  Float_arith env "-" (fun minuend subtrahend => .float (fpu.sub minuend subtrahend)) self arg

/-- `Float_mul(self, arg)`, the method `Float#*`. -/
def Float_mul (fpu : Fpu) (env : Env) (self : Double) (arg : Value) : Result Value :=
  Float_arith env "*"
    (fun multiplicand multiplier => .float (fpu.mul multiplicand multiplier)) self arg

/-- `Float_div(self, arg)`, the method `Float#/`: `FloatValue::nan` when the
divisor compares equal to `0.0`. -/
def Float_div (fpu : Fpu) (env : Env) (self : Double) (arg : Value) : Result Value :=
  Float_arith env "/"
    (fun dividend divisor =>
      if Double.eq divisor Double.zero then .float Double.nan
      else .float (fpu.div dividend divisor)) self arg

/-- The macro `NAT_DEFINE_FLOAT_COMPARISON_METHOD(name, op)`: the method
`Float#op` for a relational operator `op`. -/
def NAT_DEFINE_FLOAT_COMPARISON_METHOD (name : String) (op : Double → Double → Bool)
    (env : Env) (self : Double) (arg : Value) : Result Value :=
  let coerced : Result (Value × Value) :=
    match arg with
    | .float _ => .ok (.float self, arg)
    | _ => coerce env arg (.float self)
  match coerced with
  | .raise cls => .raise cls
  | .crash => .crash
  | .ok (lhs, rhs) =>
    match lhs with
    | .float lhs_d =>
      match rhs with
      | .float rhs_d =>
        if lhs_d.is_nan || rhs_d.is_nan then .ok .nil
        else if op lhs_d rhs_d then .ok .true_
        else .ok .false_
      | _ => .raise .ArgumentError
    | _ => env.send lhs name [rhs]

/-- `Float_lt`, the method `Float#<`. -/
def Float_lt : Env → Double → Value → Result Value :=
  NAT_DEFINE_FLOAT_COMPARISON_METHOD "<" Double.lt

/-- `Float_lte`, the method `Float#<=`. -/
def Float_lte : Env → Double → Value → Result Value :=
  NAT_DEFINE_FLOAT_COMPARISON_METHOD "<=" Double.le

/-- `Float_gt`, the method `Float#>`. -/
def Float_gt : Env → Double → Value → Result Value :=
  NAT_DEFINE_FLOAT_COMPARISON_METHOD ">" Double.gt

/-- `Float_gte`, the method `Float#>=`. -/
def Float_gte : Env → Double → Value → Result Value :=
  NAT_DEFINE_FLOAT_COMPARISON_METHOD ">=" Double.ge

/-! ## `Float_to_s` -/

/-- The loop `while (len > 1 && out[len - 1] == '0' && out[len - 2] != '.')
out[--len] = '\0';` of `Float_to_s`: the final `len`. -/
def Float_to_s_loop (out : List Byte) : Nat → Nat
  | 0 => 0
  | 1 => 1
  | len + 2 =>
    if out.getD (len + 1) 0 = 48 ∧ out.getD len 0 ≠ 46 then Float_to_s_loop out (len + 1)
    else len + 2

/-- `Float_to_s(self)`, the method `Float#to_s`.  `format_15f` is
`snprintf` with the format `"%.15f"` of the C library, a parameter of the
model; the buffer `out[100]` keeps at most 99 characters of it. -/
def Float_to_s (format_15f : Double → List Byte) (env : Env) (self : Double) : Result Value :=
  if self.is_nan then .ok (.string (StringValue.new env [78, 97, 78]))
  else if self.is_positive_infinity then
    .ok (.string (StringValue.new env [73, 110, 102, 105, 110, 105, 116, 121]))
  else if self.is_negative_infinity then
    .ok (.string (StringValue.new env [45, 73, 110, 102, 105, 110, 105, 116, 121]))
  else
    let out := (format_15f self).take 99
    let len := Float_to_s_loop out out.length
    .ok (.string (StringValue.new env (out.take len)))

/-! ## `MatchData` -/

/-- The field `num_regs` of an `OnigRegion`. -/
def OnigRegion.num_regs (region : OnigRegion) : Nat := region.beg.length

/-- The construction shared by `MatchData_to_s` and `MatchData_ref`:
`string(env, &matchdata_str[beg[i]])`, then `str_len = end[i] - beg[i]` and
`str[str_len] = 0`.  Offsets that leave the snapshot are undefined. -/
def MatchData_substring (env : Env) (self : MatchDataValue) (i : Nat) : Result Value :=
  let b := self.region.beg.getD i 0
  let e := self.region.end_.getD i 0
  if 0 ≤ b ∧ b ≤ e ∧ e ≤ (self.str.length : Int) then
    .ok (.string (StringValue.new env ((self.str.drop b.toNat).take (e - b).toNat)))
  else .crash

/-- `MatchData_size(self)`, the method `MatchData#size`. -/
def MatchData_size (_env : Env) (self : MatchDataValue) : Result Value :=
  if self.region.num_regs > 0 then .ok (.integer self.region.num_regs) else .crash

/-- `MatchData_to_s(self)`, the method `MatchData#to_s`. -/
def MatchData_to_s (env : Env) (self : MatchDataValue) : Result Value :=
  if self.region.num_regs > 0 then MatchData_substring env self 0 else .crash

/-- `MatchData_ref(self, index)`, the method `MatchData#[]`.  A group name
reaches `NAT_NOT_YET_IMPLEMENTED`, a negative index fails `assert(index >= 0)`:
both end the process. -/
def MatchData_ref (env : Env) (self : MatchDataValue) (arg : Value) : Result Value :=
  match arg with
  | .string _ => .crash
  | .symbol _ => .crash
  | .integer index =>
    if index < 0 then .crash
    else if index = 0 then MatchData_to_s env self
    else if index ≥ (self.region.num_regs : Int) then .ok .nil
    else MatchData_substring env self index.toNat
  | _ => .raise .TypeError

/-! ## `IntegerValue::abs` -/

/-- `IntegerValue::abs(env)`, the method `Integer#abs`: `-1 * number` is an
`int64_t` product. -/
def IntegerValue.abs (_env : Env) (self : Int) : Result Value :=
  if self < 0 then .ok (.integer (wrap64 (-1 * self))) else .ok (.integer self)

/-! ## Match results on the heap -/

/-- The byte buffers of the heap, by address. -/
structure Heap where
  cells : List (List Byte)

/-- The bytes of the buffer at an address. -/
def Heap.read (heap : Heap) (addr : Nat) : List Byte := heap.cells.getD addr []

/-- A store into the buffer at an address. -/
def Heap.write (heap : Heap) (addr : Nat) (bytes : List Byte) : Heap :=
  ⟨heap.cells.set addr bytes⟩

/-- `strdup(p)`: a fresh buffer holding a copy of the bytes at `p`, and its
address. -/
def Heap.strdup (heap : Heap) (addr : Nat) : Heap × Nat :=
  (⟨heap.cells ++ [heap.read addr]⟩, heap.cells.length)

/-- A `StringValue` as an object: the address of its buffer and its tag. -/
structure StringObject where
  c_str : Nat
  encoding : Encoding

/-- A `MatchDataValue` as an object: the regions and the address `m_str`. -/
structure MatchDataObject where
  region : OnigRegion
  m_str : Nat

/-- The constructor `MatchDataValue(env, region, string)` of
`match_data_value.hpp`: `m_str { strdup(string->c_str()) }`. -/
def MatchDataObject.new (heap : Heap) (region : OnigRegion) (string : StringObject) :
    Heap × MatchDataObject :=
  ((heap.strdup string.c_str).1, ⟨region, (heap.strdup string.c_str).2⟩)

/-- The match result an object stands for: its regions and the bytes `c_str()`
points to. -/
def MatchDataObject.value (heap : Heap) (m : MatchDataObject) : MatchDataValue :=
  ⟨m.region, heap.read m.m_str⟩

/-- The in-place mutations of a string: append, truncate, re-tag. -/
inductive Mutation
  | append (bytes : List Byte)
  | truncate (n : Nat)
  | set_encoding (e : Encoding)

/-- Modelled from the spec: a string is "never mutated in place except
StringBuffer (append, truncate, re-tag encoding)", and its buffer is "owned
exclusively by its String value" (the methods of `StringValue` are not among
the sources).  `append` and `truncate` store into the buffer of the string,
`set_encoding` replaces the tag. -/
def StringObject.mutate (heap : Heap) (s : StringObject) : Mutation → Heap × StringObject
  | .append bytes => (heap.write s.c_str (heap.read s.c_str ++ bytes), s)
  | .truncate n => (heap.write s.c_str ((heap.read s.c_str).take n), s)
  | .set_encoding e => (heap, { s with encoding := e })

/-- A sequence of mutations of a string object, in order. -/
def StringObject.mutate_all (heap : Heap) (s : StringObject) : List Mutation → Heap × StringObject
  | [] => (heap, s)
  | mutation :: rest =>
    StringObject.mutate_all (s.mutate heap mutation).1 (s.mutate heap mutation).2 rest

/-! ## Vocabulary of the properties -/

/-- Negative wraparound of an index over `n` characters: a negative index
counts from the end. -/
def wrap_index (n : Nat) (i : Int) : Int := if i < 0 then (n : Int) + i else i

/-- The concatenation, in order, of the bytes of the characters at positions
`i`, ..., `j - 1`. -/
def concat_chars (chars : List StringValue) (i j : Nat) : List Byte :=
  (((chars.take j).drop i).map StringValue.str).flatten

/-- Whether the literal `d` occurs in `s` at byte offset `i`. -/
def occurs_at (s d : List Byte) (i : Nat) : Bool := starts_with (s.drop i) d

/-- The offsets of the successive leftmost non-overlapping occurrences of the
literal `d`, in the words of the claim: reading the text from offset `off`,
with `skip` bytes of the previous occurrence still to pass, every offset at
which `d` is found is an occurrence, and the search resumes at its end. -/
def occurrences_from (d : List Byte) : List Byte → Nat → Nat → List Nat
  | [], _, _ => []
  | _ :: bs, off, skip + 1 => occurrences_from d bs (off + 1) skip
  | b :: bs, off, 0 =>
    if starts_with (b :: bs) d then off :: occurrences_from d bs (off + 1) (d.length - 1)
    else occurrences_from d bs (off + 1) 0

/-- The successive leftmost non-overlapping occurrences of `d` in `s`. -/
def occurrences (s d : List Byte) : List Nat := occurrences_from d s 0 0

/-- The text between successive occurrences (each `dlen` bytes long, the
previous one ending at `prev`), followed by the tail after the last one. -/
def segments (s : List Byte) (dlen : Nat) : Nat → List Nat → List (List Byte)
  | prev, [] => [s.drop prev]
  | prev, i :: rest => ((s.drop prev).take (i - prev)) :: segments s dlen (i + dlen) rest

/-- Two bytes that are equal or are the two cases of one ASCII letter. -/
def same_letter (x y : Nat) : Prop :=
  x = y ∨ (65 ≤ x ∧ x ≤ 90 ∧ y = x + 32) ∨ (65 ≤ y ∧ y ≤ 90 ∧ x = y + 32)

/-- Equality of two names ignoring ASCII letter case, in the words of the
claim: the same length, and byte by byte the same letter. -/
def eq_ignore_case (a b : List Byte) : Prop := List.Forall₂ same_letter a b

/-- Whether one of the names of the encoding (the canonical name or an alias)
equals the query ignoring ASCII letter case. -/
def has_name (e : EncodingValue) (name : List Byte) : Prop :=
  ∃ n ∈ e.names, eq_ignore_case n.str name

/-- The argument of `force_encoding` / `encode` designates the encoding `e`:
it is that encoding value, or a name that `find_encoding_by_name` resolves to
it. -/
def resolves_to (env : Env) (arg : Value) (e : EncodingValue) : Prop :=
  arg = .encoding e ∨
    ∃ name : StringValue, arg = .string name ∧ find_encoding_by_name env name.str = .ok e

/-- `is_integer()`. -/
def Value.is_integer : Value → Bool
  | .integer _ => true
  | _ => false

/-- `is_float()`. -/
def Value.is_float : Value → Bool
  | .float _ => true
  | _ => false

/-- `is_string()`. -/
def Value.is_string : Value → Bool
  | .string _ => true
  | _ => false

/-- The dispatch substrate binds `coerce` on the two numeric kinds to
`IntegerValue::coerce` and `Float_coerce`, as the method tables of the runtime
do. -/
def dispatches_coerce (env : Env) : Prop :=
  (∀ n : Int, env.respond_to (.integer n) "coerce" = true) ∧
  (∀ f : Double, env.respond_to (.float f) "coerce" = true) ∧
  (∀ (n : Int) (a : Value), env.send (.integer n) "coerce" [a] = IntegerValue.coerce env n a) ∧
  (∀ (f : Double) (a : Value), env.send (.float f) "coerce" [a] = Float_coerce env f a)

/-- The dispatch substrate binds `/` on a Float receiver to `Float_div` (stated
for a Float argument). -/
def dispatches_float_div (fpu : Fpu) (env : Env) : Prop :=
  ∀ f g : Double, env.send (.float f) "/" [.float g] = Float_div fpu env f (.float g)

/-- A text without its maximal run of trailing `'0'` characters. -/
def rstrip_zeros (l : List Byte) : List Byte := (l.reverse.dropWhile (· == 48)).reverse

/-- The bytes of a snapshot in `[b, e)`. -/
def bytes_between (s : List Byte) (b e : Int) : List Byte := (s.take e.toNat).drop b.toNat

/-- The segments concatenated with `d` inserted between consecutive ones. -/
def join_with (d : List Byte) : List (List Byte) → List Byte
  | [] => []
  | [a] => a
  | a :: b :: rest => a ++ d ++ join_with d (b :: rest)

/-- The UTF-8 encoding of a code point: one byte `0xxxxxxx` below `0x80`, two
bytes `110xxxxx 10xxxxxx` below `0x800`, three bytes `1110xxxx 10xxxxxx
10xxxxxx` below `0x10000`, four bytes `11110xxx 10xxxxxx 10xxxxxx 10xxxxxx`
above. -/
def utf8_encode (c : Nat) : List Byte :=
  if c < 0x80 then [c]
  else if c < 0x800 then [0xC0 + c / 64, 0x80 + c % 64]
  else if c < 0x10000 then [0xE0 + c / 4096, 0x80 + c / 64 % 64, 0x80 + c % 64]
  else [0xF0 + c / 262144, 0x80 + c / 4096 % 64, 0x80 + c / 64 % 64, 0x80 + c % 64]

/-! ## Sample data -/

/-- The bytes of an ASCII text. -/
def ascii (s : String) : List Byte := s.toList.map Char.toNat

/-- A sample environment: the two encodings under their usual names, UTF-8 as
the tag of fresh strings, and no user-defined methods. -/
def sample_env : Env where
  encodings :=
    [⟨.ASCII_8BIT, [⟨ascii "ASCII-8BIT", .UTF_8⟩, ⟨ascii "BINARY", .UTF_8⟩]⟩,
     ⟨.UTF_8, [⟨ascii "UTF-8", .UTF_8⟩]⟩]
  default_encoding := .UTF_8
  respond_to := fun _ _ => false
  send := fun _ _ _ => .raise .NotImplementedError

/-- The string `"hello"`. -/
def hello : StringValue := ⟨ascii "hello", .UTF_8⟩

/-- The string `"é"`: one character of two bytes under UTF-8. -/
def e_acute : StringValue := ⟨[0xC3, 0xA9], .UTF_8⟩

/-- A pattern that matches nowhere. -/
def never_matching : RegexpValue := ⟨fun _ _ => none⟩

/-- A pattern that matches the first byte `,` at or after the start offset,
as the one region `(i, i + 1)`. -/
def comma_pattern : RegexpValue :=
  ⟨fun text start =>
    match index_loop [44] (text.drop start) start with
    | Int.ofNat i => some ⟨[(i : Int)], [(i : Int) + 1]⟩
    | Int.negSucc _ => none⟩

/-- A sample floating-point unit: exact on finite operands, NaN otherwise (the
results used in the samples are representable). -/
def sample_fpu : Fpu where
  add
    | .finite n1 m1, .finite n2 m2 =>
      .finite (decide (Double.value n1 m1 + Double.value n2 m2 < 0))
        |Double.value n1 m1 + Double.value n2 m2|
    | _, _ => .nan
  sub
    | .finite n1 m1, .finite n2 m2 =>
      .finite (decide (Double.value n1 m1 - Double.value n2 m2 < 0))
        |Double.value n1 m1 - Double.value n2 m2|
    | _, _ => .nan
  mul
    | .finite n1 m1, .finite n2 m2 =>
      .finite (decide (Double.value n1 m1 * Double.value n2 m2 < 0))
        |Double.value n1 m1 * Double.value n2 m2|
    | _, _ => .nan
  div
    | .finite n1 m1, .finite n2 m2 =>
      .finite (decide (Double.value n1 m1 / Double.value n2 m2 < 0))
        |Double.value n1 m1 / Double.value n2 m2|
    | _, _ => .nan
  pow := fun _ _ => .nan

/-- A sample environment with the built-in numeric methods bound: `coerce` on
Integer and Float, `/` on Float. -/
def builtin_env : Env where
  encodings := sample_env.encodings
  default_encoding := .UTF_8
  respond_to := fun recv name =>
    match recv with
    | .integer _ => name == "coerce"
    | .float _ => name == "coerce" || name == "/"
    | _ => false
  send := fun recv name args =>
    match recv, args with
    | .integer n, [a] =>
      if name = "coerce" then IntegerValue.coerce sample_env n a
      else .raise .NotImplementedError
    | .float f, [a] =>
      if name = "coerce" then Float_coerce sample_env f a
      else if name = "/" then Float_div sample_fpu sample_env f a
      else .raise .NotImplementedError
    | _, _ => .raise .NotImplementedError

/-- The Float `1.0`. -/
def one : Double := .finite false 1

/-- The Float `2.0`. -/
def two : Double := .finite false 2

/-- The Float `-0.0`. -/
def negative_zero : Double := .finite true 0

/-- A match of `"ell"` in `"hello"` with one capture group, `"l"` at 2. -/
def sample_match : MatchDataValue := ⟨⟨[1, 2], [4, 3]⟩, ascii "hello"⟩

/-- The Float `1.25`. -/
def five_quarters : Double := .finite false (5 / 4)

/-- The texts that `snprintf` with `"%.15f"` produces for the sample values
`1.0` and `1.25` (and a zero text elsewhere). -/
def sample_format_15f : Double → List Byte
  | .finite false m =>
    if m = 1 then ascii "1.000000000000000"
    else if m = 5 / 4 then ascii "1.250000000000000"
    else ascii "0.000000000000000"
  | _ => ascii "0.000000000000000"

/-- The Float `1e100`: the `double` nearest to `10^100`, an integer of 101
digits. -/
def ten_to_100 : Double :=
  .finite false
    10000000000000000159028911097599180468360808563945281389781327557747838772170381060813469985856815104

/-- The texts of `sample_format_15f`, and for `1e100` the text that `snprintf`
with `"%.15f"` produces: 101 integer digits, the `'.'` and 15 fractional
digits, 117 characters. -/
def wide_format_15f (d : Double) : List Byte :=
  if d = ten_to_100 then
    ascii "10000000000000000159028911097599180468360808563945281389781327557747838772170381060813469985856815104"
      ++ 46 :: ascii "000000000000000"
  else sample_format_15f d

/-- A pattern that matches the empty text at the start offset. -/
def empty_matching : RegexpValue := ⟨fun _ start => some ⟨[(start : Int)], [(start : Int)]⟩⟩

/-- A heap with one buffer, `"hello"`, and the string object that owns it. -/
def sample_heap : Heap := ⟨[ascii "hello"]⟩

/-- The string object of `sample_heap`. -/
def hello_object : StringObject := ⟨0, .UTF_8⟩

/-! # Properties -/

/-! ## `String_ref` -/

/-- C1: `String_ref` with an integer index `i` on a string of `n` characters
returns the character at position `i` (for `i ≥ 0`) or `n + i` (for `i < 0`)
when `-n ≤ i < n`, and nil otherwise. -/
theorem String_ref_integer (env : Env) (self : StringValue) (i : Int) :
    (-(self.chars.length : Int) ≤ i ∧ i < self.chars.length →
      ∃ c, self.chars[(if 0 ≤ i then i else self.chars.length + i).toNat]? = some c ∧
        String_ref env self (.integer i) = .ok (.string c)) ∧
    (¬ (-(self.chars.length : Int) ≤ i ∧ i < self.chars.length) →
      String_ref env self (.integer i) = .ok .nil) := by
  constructor
  · rintro ⟨h1, h2⟩
    by_cases hi : i < 0
    · have hlt : (self.chars.length + i).toNat < self.chars.length := by omega
      refine ⟨self.chars[(self.chars.length + i).toNat], ?_, ?_⟩
      · rw [if_neg (by omega)]
        exact List.getElem?_eq_getElem hlt
      · simp only [String_ref]
        rw [if_pos hi, if_neg (by omega), List.getElem?_eq_getElem hlt]
    · have hlt : i.toNat < self.chars.length := by omega
      refine ⟨self.chars[i.toNat], ?_, ?_⟩
      · rw [if_pos (by omega)]
        exact List.getElem?_eq_getElem hlt
      · simp only [String_ref]
        rw [if_neg hi, if_neg (by omega), List.getElem?_eq_getElem hlt]
  · intro h
    simp only [String_ref]
    by_cases hi : i < 0
    · rw [if_pos hi, if_pos (by omega)]
    · rw [if_neg hi, if_pos (by omega)]

/-- C1, on `"hello"`: index `-1` gives `"o"` and index `10` gives nil. -/
theorem String_ref_integer_hello :
    String_ref sample_env hello (.integer (-1)) = .ok (.string ⟨ascii "o", .UTF_8⟩) ∧
    String_ref sample_env hello (.integer 10) = .ok .nil := by
  constructor
  · obtain ⟨c, hc, h⟩ := (String_ref_integer sample_env hello (-1)).1 (by decide)
    have hc4 : hello.chars[4]? = some c := hc
    have hco : c = ⟨ascii "o", .UTF_8⟩ := by
      have h4 : hello.chars[4]? = some ⟨ascii "o", .UTF_8⟩ := by decide
      rw [h4] at hc4
      exact (Option.some.inj hc4).symm
    rw [h, hco]
  · exact (String_ref_integer sample_env hello 10).2 (by decide)

/-- The loop of `String_ref` appends the characters at positions `i`, ...,
`i + count - 1` when they all exist. -/
theorem String_ref_loop_eq (chars : List StringValue) (count : Nat) :
    ∀ (i : Nat) (result : StringValue), i + count ≤ chars.length →
      String_ref_loop chars i count result =
        .ok ⟨result.str ++ concat_chars chars i (i + count), result.encoding⟩ := by
  induction count with
  | zero =>
    intro i result _
    have h0 : (chars.take (i + 0)).drop i = [] :=
      List.drop_eq_nil_of_le (by simp)
    simp only [String_ref_loop, concat_chars, h0, List.map_nil, List.flatten_nil, List.append_nil]
  | succ k ih =>
    intro i result h
    have hi : i < chars.length := by omega
    rw [String_ref_loop, List.getElem?_eq_getElem hi]
    simp only
    rw [ih (i + 1) _ (by omega)]
    simp only [StringValue.append_string, concat_chars]
    have h1 : (chars.take (i + (k + 1))).drop i =
        chars[i] :: (chars.take (i + 1 + k)).drop (i + 1) := by
      rw [List.drop_eq_getElem_cons (by simp; omega)]
      simp [List.getElem_take]
      congr 2
      omega
    rw [h1]
    simp [List.append_assoc]

/-- An empty interval of positions concatenates to nothing. -/
theorem concat_chars_of_le (chars : List StringValue) (i j : Nat) (h : j ≤ i) :
    concat_chars chars i j = [] := by
  have h0 : (chars.take j).drop i = [] :=
    List.drop_eq_nil_of_le (by simp; omega)
  simp only [concat_chars, h0, List.map_nil, List.flatten_nil]

/-- Where the increment `end++` stays within `int64_t`: `String_ref` with an
integer range whose wrapped begin `b'` and end `e'` satisfy `0 ≤ b' < n` and
`0 ≤ e'`, and whose end is below `INT64_MAX` when the range is inclusive,
returns the concatenation of the characters at positions `b'` up to but
excluding `min(u, n)`, with `u = e' + 1` (inclusive) or `u = e'`
(end-excluding). -/
theorem String_ref_range_eq (env : Env) (self : StringValue) (b e : Int) (excl : Bool)
    (hb0 : 0 ≤ wrap_index self.chars.length b)
    (hbn : wrap_index self.chars.length b < self.chars.length)
    (he0 : 0 ≤ wrap_index self.chars.length e)
    (hmax : excl = false → wrap_index self.chars.length e < INT64_MAX) :
    String_ref env self (.range (.integer b) (.integer e) excl) =
      .ok (.string ⟨concat_chars self.chars (wrap_index self.chars.length b).toNat
        (min (if excl then wrap_index self.chars.length e
              else wrap_index self.chars.length e + 1) self.chars.length).toNat,
        env.default_encoding⟩) := by
  simp only [wrap_index] at hb0 hbn he0 hmax ⊢
  generalize hb' : (if b < 0 then (self.chars.length : Int) + b else b) = b' at *
  generalize he' : (if e < 0 then (self.chars.length : Int) + e else e) = e' at *
  simp only [String_ref, hb', he']
  rw [if_neg (by omega), if_neg (by omega)]
  have hwrap : (if (!excl) = true then wrap64 (e' + 1) else e') =
      (if excl then e' else e' + 1) := by
    cases excl with
    | true => simp
    | false =>
      have h1 := hmax rfl
      simp only [INT64_MAX] at h1
      simp only [Bool.not_false, if_true, wrap64]
      simp only [Bool.false_eq_true, if_false]
      omega
  simp only [hwrap]
  generalize (if excl then e' else e' + 1) = u
  have hmin : (if u > (self.chars.length : Int) then (self.chars.length : Int) else u) =
      min u self.chars.length := by
    split <;> omega
  rw [hmin]
  generalize hm : min u (self.chars.length : Int) = m
  have hmn : m ≤ self.chars.length := by omega
  by_cases hle : b' ≤ m
  · rw [String_ref_loop_eq _ _ _ _ (by omega)]
    have hsum : b'.toNat + (m - b').toNat = m.toNat := by omega
    simp only [hsum, StringValue.empty, List.nil_append]
  · rw [String_ref_loop_eq _ _ _ _ (by omega)]
    have hz : (m - b').toNat = 0 := by omega
    rw [hz, concat_chars_of_le _ _ _ (by omega), concat_chars_of_le _ _ _ (by omega)]
    simp only [StringValue.empty, List.nil_append]

/-- On `"hello"` the range `1..3` gives `"ell"` and the range `1...3` gives
`"el"`. -/
theorem String_ref_range_hello :
    String_ref sample_env hello (.range (.integer 1) (.integer 3) false)
      = .ok (.string ⟨ascii "ell", .UTF_8⟩) ∧
    String_ref sample_env hello (.range (.integer 1) (.integer 3) true)
      = .ok (.string ⟨ascii "el", .UTF_8⟩) := by
  constructor
  · rw [String_ref_range_eq sample_env hello 1 3 false (by decide) (by decide) (by decide)
      (by decide)]
    rfl
  · rw [String_ref_range_eq sample_env hello 1 3 true (by decide) (by decide) (by decide)
      (by decide)]
    rfl

/-- C2: on `"hello"` the inclusive range `0..INT64_MAX` is in the domain of
the claim (`b' = 0 < 5`, `e' ≥ 0`) and the characters at positions `0` up to
`min(INT64_MAX + 1, 5)` are `"hello"`, but the increment `end++` overflows
before the clamp to the character count and `String_ref` returns the empty
string.  The end-excluding range `0...INT64_MAX`, which has no increment, and
the inclusive range `0..INT64_MAX - 1` are clamped and give `"hello"`. -/
theorem String_ref_range_inclusive_int64_max :
    0 ≤ wrap_index hello.chars.length 0 ∧
    wrap_index hello.chars.length 0 < hello.chars.length ∧
    0 ≤ wrap_index hello.chars.length INT64_MAX ∧
    String_ref sample_env hello (.range (.integer 0) (.integer INT64_MAX) false)
      = .ok (.string ⟨[], .UTF_8⟩) ∧
    concat_chars hello.chars (wrap_index hello.chars.length 0).toNat
        (min (wrap_index hello.chars.length INT64_MAX + 1) (hello.chars.length : Int)).toNat
      = ascii "hello" ∧
    ascii "hello" ≠ [] ∧
    String_ref sample_env hello (.range (.integer 0) (.integer INT64_MAX) true)
      = .ok (.string ⟨ascii "hello", .UTF_8⟩) ∧
    String_ref sample_env hello (.range (.integer 0) (.integer (INT64_MAX - 1)) false)
      = .ok (.string ⟨ascii "hello", .UTF_8⟩) := by
  refine ⟨by decide, by decide, by decide, rfl, by decide, by decide, rfl, rfl⟩

/-- C3 as stated fails: on `"hello"` (5 characters) the range `5..7`, whose
begin equals the character count and whose end is non-negative, gives nil and
not the empty string. -/
theorem String_ref_range_begin_at_count :
    hello.chars.length = 5 ∧
    String_ref sample_env hello (.range (.integer 5) (.integer 7) false) = .ok .nil ∧
    String_ref sample_env hello (.range (.integer 5) (.integer 7) false)
      ≠ .ok (.string (StringValue.empty sample_env)) := by
  refine ⟨by decide, rfl, ?_⟩
  have h : String_ref sample_env hello (.range (.integer 5) (.integer 7) false) = .ok .nil := rfl
  rw [h]
  intro hc
  cases hc

/-- C3, amended: `String_ref` with an integer range on a string of `n`
characters returns nil exactly when, after negative wraparound, the begin or
the end is negative or the begin is at or beyond `n` (greater than or equal to
it); so a begin equal to `n` gives nil. -/
theorem String_ref_range_nil_iff (env : Env) (self : StringValue) (b e : Int) (excl : Bool) :
    String_ref env self (.range (.integer b) (.integer e) excl) = .ok .nil ↔
      (wrap_index self.chars.length b < 0 ∨ wrap_index self.chars.length e < 0 ∨
        (self.chars.length : Int) ≤ wrap_index self.chars.length b) := by
  simp only [wrap_index, String_ref]
  generalize (if b < 0 then (self.chars.length : Int) + b else b) = b'
  generalize (if e < 0 then (self.chars.length : Int) + e else e) = e'
  by_cases h1 : b' < 0 ∨ e' < 0
  · rw [if_pos h1]
    constructor
    · intro _
      rcases h1 with h1 | h1
      · exact Or.inl h1
      · exact Or.inr (Or.inl h1)
    · intro _
      rfl
  · rw [if_neg h1]
    by_cases h2 : b' ≥ (self.chars.length : Int)
    · rw [if_pos h2]
      constructor
      · intro _
        exact Or.inr (Or.inr h2)
      · intro _
        rfl
    · rw [if_neg h2]
      constructor
      · intro h
        exfalso
        revert h
        generalize String_ref_loop self.chars b'.toNat _ _ = r
        cases r <;> intro h <;> cases h
      · intro h
        omega

/-! ## `String_split` -/

/-- A needle found at the start of a text is no longer than the text. -/
theorem starts_with_length : ∀ (t d : List Byte), starts_with t d = true → d.length ≤ t.length
  | _, [], _ => by simp
  | [], _ :: _, h => by simp [starts_with] at h
  | t :: ts, n :: ns, h => by
    simp only [starts_with, Bool.and_eq_true] at h
    have := starts_with_length ts ns h.2
    simp only [List.length_cons]
    omega

/-- A needle found at the start of a text is its leading bytes. -/
theorem starts_with_eq_take : ∀ (t d : List Byte), starts_with t d = true → t.take d.length = d
  | _, [], _ => by simp
  | [], _ :: _, h => by simp [starts_with] at h
  | t :: ts, n :: ns, h => by
    simp only [starts_with, Bool.and_eq_true, beq_iff_eq] at h
    have := starts_with_eq_take ts ns h.2
    simp only [List.length_cons, List.take_succ_cons, this, h.1]

/-- The scan of `index` returns -1 when the needle occurs nowhere in the text,
and otherwise the offset of the leftmost occurrence. -/
theorem index_loop_spec (d : List Byte) : ∀ (t : List Byte) (off : Nat),
    (index_loop d t off = -1 ∧ ∀ j, starts_with (t.drop j) d = false) ∨
    (∃ j, index_loop d t off = ((off + j : Nat) : Int) ∧ j ≤ t.length ∧
      starts_with (t.drop j) d = true ∧ ∀ k, k < j → starts_with (t.drop k) d = false)
  | [], off => by
    by_cases h : starts_with [] d = true
    · right
      refine ⟨0, ?_, ?_, ?_, ?_⟩
      · simp [index_loop, h]
      · simp
      · simpa using h
      · intro k hk; omega
    · left
      refine ⟨?_, ?_⟩
      · simp [index_loop, h]
      · intro j
        simpa using h
  | b :: bs, off => by
    by_cases h : starts_with (b :: bs) d = true
    · right
      refine ⟨0, ?_, ?_, ?_, ?_⟩
      · simp [index_loop, h]
      · simp
      · simpa using h
      · intro k hk; omega
    · rcases index_loop_spec d bs (off + 1) with ⟨h1, h2⟩ | ⟨j, h1, h2, h3, h4⟩
      · left
        refine ⟨?_, ?_⟩
        · simp [index_loop, h, h1]
        · intro j
          cases j with
          | zero => simpa using h
          | succ j => simpa using h2 j
      · right
        refine ⟨j + 1, ?_, ?_, ?_, ?_⟩
        · simp only [index_loop, h, h1]
          simp only [Bool.false_eq_true, if_false]
          congr 1
          omega
        · simp only [List.length_cons]; omega
        · simpa using h3
        · intro k hk
          cases k with
          | zero => simpa using h
          | succ k => simpa using h4 k (by omega)


/-- Passing `k` bytes of a previous occurrence is dropping them. -/
theorem occurrences_from_skip (d : List Byte) : ∀ (t : List Byte) (off k : Nat),
    occurrences_from d t off k = occurrences_from d (t.drop k) (off + k) 0
  | [], off, k => by
    cases k <;> simp [occurrences_from]
  | b :: bs, off, 0 => by simp
  | b :: bs, off, k + 1 => by
    rw [occurrences_from, occurrences_from_skip d bs (off + 1) k]
    simp only [List.drop_succ_cons]
    congr 1
    omega

/-- A text without an occurrence has no occurrences. -/
theorem occurrences_from_none (d : List Byte) : ∀ (t : List Byte) (off : Nat),
    (∀ j, starts_with (t.drop j) d = false) → occurrences_from d t off 0 = []
  | [], off, _ => by simp [occurrences_from]
  | b :: bs, off, h => by
    have h0 : starts_with (b :: bs) d = false := by simpa using h 0
    rw [occurrences_from, h0]
    simp only [Bool.false_eq_true, if_false]
    exact occurrences_from_none d bs (off + 1) (fun j => by simpa using h (j + 1))

/-- The first occurrence is the leftmost one, and the next ones are those of
the text after its end. -/
theorem occurrences_from_first (d : List Byte) (hd : d ≠ []) : ∀ (t : List Byte) (off j : Nat),
    starts_with (t.drop j) d = true → (∀ k, k < j → starts_with (t.drop k) d = false) →
    occurrences_from d t off 0 =
      (off + j) :: occurrences_from d (t.drop (j + d.length)) (off + j + d.length) 0
  | [], off, j, h, _ => by
    exfalso
    have := starts_with_length _ _ h
    simp at this
    exact hd this
  | b :: bs, off, 0, h, _ => by
    have h0 : starts_with (b :: bs) d = true := by simpa using h
    rw [occurrences_from, h0]
    simp only [if_true]
    rw [occurrences_from_skip]
    have hpos : 0 < d.length := List.length_pos.mpr hd
    have h1 : 0 + d.length = (d.length - 1) + 1 := by omega
    rw [h1, List.drop_succ_cons]
    congr 2
    omega
  | b :: bs, off, j + 1, h, hlt => by
    have h0 : starts_with (b :: bs) d = false := by simpa using hlt 0 (by omega)
    rw [occurrences_from, h0]
    simp only [Bool.false_eq_true, if_false]
    rw [occurrences_from_first d hd bs (off + 1) j (by simpa using h)
      (fun k hk => by simpa using hlt (k + 1) (by omega))]
    have h1 : j + 1 + d.length = (j + d.length) + 1 := by omega
    rw [h1, List.drop_succ_cons]
    have h2 : off + 1 + j = off + (j + 1) := by omega
    have h3 : off + (j + 1) + d.length = off + 1 + j + d.length := by omega
    rw [h2, h3]

/-- There is one segment more than there are occurrences. -/
theorem segments_length (s : List Byte) (dlen : Nat) : ∀ (occ : List Nat) (prev : Nat),
    (segments s dlen prev occ).length = occ.length + 1
  | [], _ => by simp [segments]
  | i :: rest, prev => by simp [segments, segments_length s dlen rest]


/-- The loop of the literal branch of `String_split`, entered at `last` with
the leftmost occurrence from there on, pushes the segments between the
occurrences from `last` on and the tail; the bytes left are fuel enough. -/
theorem String_split_string_loop_eq (env : Env) (self splitter : StringValue)
    (hd : splitter.str ≠ []) : ∀ (fuel last : Nat) (ary : List Value),
    self.index splitter last ≠ -1 → self.str.length - last ≤ fuel →
    String_split_string_loop env self splitter fuel (last : Int) (self.index splitter last) ary =
      some (ary ++ (segments self.str splitter.str.length last
        (occurrences_from splitter.str (self.str.drop last) last 0)).map
          (fun seg => Value.string (StringValue.new env seg))) := by
  intro fuel
  induction fuel with
  | zero =>
    intro last ary hidx hfuel
    exfalso
    apply hidx
    have hnil : self.str.drop last = [] := List.drop_eq_nil_of_le (by omega)
    simp only [StringValue.index, hnil, index_loop]
    cases hds : splitter.str with
    | nil => exact absurd hds hd
    | cons x xs => simp [starts_with]
  | succ fuel ih =>
    intro last ary hidx hfuel
    rcases index_loop_spec splitter.str (self.str.drop last) last with
      ⟨h1, _⟩ | ⟨j, h1, h2, h3, h4⟩
    · exact absurd h1 hidx
    · have hidx_eq : self.index splitter last = ((last + j : Nat) : Int) := h1
      have hlen := starts_with_length _ _ h3
      simp only [List.length_drop] at hlen h2
      have hpos : 0 < splitter.str.length := List.length_pos.mpr hd
      have hocc := occurrences_from_first splitter.str hd (self.str.drop last) last j h3 h4
      rw [List.drop_drop] at hocc
      have hcast : ((last + j : Nat) : Int) + (splitter.length : Int) =
          ((last + j + splitter.str.length : Nat) : Int) := by
        simp [StringValue.length]
      rw [hidx_eq, String_split_string_loop]
      simp only [hcast, Int.toNat_ofNat]
      have hsub : (((last + j : Nat) : Int) - (last : Int)).toNat = j := by omega
      rw [hsub, hocc]
      have hdrop : last + (j + splitter.str.length) = last + j + splitter.str.length := by omega
      rw [hdrop]
      by_cases hnext : self.index splitter (last + j + splitter.str.length) ≠ -1
      · rw [if_pos hnext, ih (last + j + splitter.str.length) _ hnext (by omega)]
        simp [segments]
      · rw [if_neg hnext]
        have hnext' : self.index splitter (last + j + splitter.str.length) = -1 := by
          simpa using hnext
        rcases index_loop_spec splitter.str (self.str.drop (last + j + splitter.str.length))
          (last + j + splitter.str.length) with ⟨_, hnone⟩ | ⟨k, hk, _, _, _⟩
        · rw [occurrences_from_none _ _ _ hnone]
          simp [segments]
        · exfalso
          have : self.index splitter (last + j + splitter.str.length) =
              ((last + j + splitter.str.length + k : Nat) : Int) := hk
          rw [this] at hnext'
          omega

/-- C4: `String_split` of a non-empty string by a non-empty literal that
occurs in it returns (with fuel for one iteration per byte) the text between
the successive leftmost non-overlapping occurrences followed by the tail after
the last one, `k + 1` segments for `k` occurrences. -/
theorem String_split_literal (env : Env) (self splitter : StringValue) (fuel : Nat)
    (hs : self.str ≠ []) (hd : splitter.str ≠ [])
    (hocc : ∃ i, occurs_at self.str splitter.str i = true)
    (hfuel : self.length ≤ fuel) :
    String_split fuel env self (.string splitter) =
      some (.ok (.array ((segments self.str splitter.str.length 0
        (occurrences self.str splitter.str)).map
          (fun seg => Value.string (StringValue.new env seg))))) ∧
    (segments self.str splitter.str.length 0 (occurrences self.str splitter.str)).length =
      (occurrences self.str splitter.str).length + 1 := by
  refine ⟨?_, segments_length _ _ _ _⟩
  have hlen : self.length ≠ 0 := by
    simp only [StringValue.length]
    exact fun h => hs (List.length_eq_zero.mp h)
  have hidx : self.index splitter 0 ≠ -1 := by
    rcases index_loop_spec splitter.str (self.str.drop 0) 0 with ⟨_, hnone⟩ | ⟨k, hk, _, _, _⟩
    · obtain ⟨i, hi⟩ := hocc
      have := hnone i
      simp only [occurs_at, List.drop_zero] at hi this
      rw [hi] at this
      exact absurd this (by simp)
    · have : self.index splitter 0 = ((0 + k : Nat) : Int) := hk
      rw [this]
      omega
  have hloop := String_split_string_loop_eq env self splitter hd fuel 0 [] hidx
    (by simp only [StringValue.length] at hfuel; omega)
  simp only [String_split, if_neg hlen, if_neg hidx]
  simp only [Nat.cast_zero, List.nil_append, List.drop_zero] at hloop
  rw [hloop]
  rfl


/-- C4, on `"a,b,"` split by `","`: two occurrences, three segments, the last
one empty. -/
theorem String_split_literal_trailing :
    String_split 4 sample_env ⟨ascii "a,b,", .UTF_8⟩ (.string ⟨ascii ",", .UTF_8⟩) =
      some (.ok (.array [.string ⟨ascii "a", .UTF_8⟩, .string ⟨ascii "b", .UTF_8⟩,
        .string ⟨[], .UTF_8⟩])) ∧
    occurrences (ascii "a,b,") (ascii ",") = [1, 3] := by
  constructor
  · rw [(String_split_literal sample_env ⟨ascii "a,b,", .UTF_8⟩ ⟨ascii ",", .UTF_8⟩ 4
      (by decide) (by decide) ⟨1, by decide⟩ (by decide)).1]
    rfl
  · decide

/-- C5: `String_split` of the empty string is the empty sequence, whatever
the delimiter; of a non-empty string in which the literal delimiter occurs
nowhere, or the pattern delimiter has no match, it is the one-element sequence
holding a duplicate of the string, with the same bytes.  No fuel is needed. -/
theorem String_split_degenerate (fuel : Nat) (env : Env) (self : StringValue) :
    (∀ splitter, self.str = [] →
      String_split fuel env self splitter = some (.ok (.array []))) ∧
    (∀ d : StringValue, self.str ≠ [] → (∀ i, occurs_at self.str d.str i = false) →
      String_split fuel env self (.string d) = some (.ok (.array [.string self.dup]))) ∧
    (∀ r : RegexpValue, self.str ≠ [] → r.search self.str 0 = none →
      String_split fuel env self (.regexp r) = some (.ok (.array [.string self.dup]))) ∧
    self.dup.str = self.str := by
  refine ⟨?_, ?_, ?_, rfl⟩
  · intro splitter h
    simp [String_split, StringValue.length, h]
  · intro d hs hnone
    have hlen : self.length ≠ 0 := by
      simp only [StringValue.length]
      exact fun h => hs (List.length_eq_zero.mp h)
    have hidx : self.index d 0 = -1 := by
      rcases index_loop_spec d.str (self.str.drop 0) 0 with ⟨h1, _⟩ | ⟨k, _, _, hk, _⟩
      · exact h1
      · have := hnone k
        simp only [occurs_at, List.drop_zero] at this hk
        rw [hk] at this
        exact absurd this (by simp)
    simp only [String_split, if_neg hlen, hidx, if_true]
  · intro r hs hnone
    have hlen : self.length ≠ 0 := by
      simp only [StringValue.length]
      exact fun h => hs (List.length_eq_zero.mp h)
    simp only [String_split, if_neg hlen, hnone]

/-- C5, on `""` split by `","` and on `"hello"` split by `","` and by a
pattern without a match. -/
theorem String_split_degenerate_hello :
    String_split 0 sample_env ⟨[], .UTF_8⟩ (.string ⟨ascii ",", .UTF_8⟩)
      = some (.ok (.array [])) ∧
    String_split 0 sample_env hello (.string ⟨ascii ",", .UTF_8⟩)
      = some (.ok (.array [.string hello])) ∧
    String_split 0 sample_env hello (.regexp never_matching)
      = some (.ok (.array [.string hello])) := by
  refine ⟨?_, ?_, ?_⟩
  · exact (String_split_degenerate 0 sample_env ⟨[], .UTF_8⟩).1 _ rfl
  · refine (String_split_degenerate 0 sample_env hello).2.1 ⟨ascii ",", .UTF_8⟩ (by decide) ?_
    intro i
    have h := index_loop_spec (ascii ",") (hello.str.drop 0) 0
    rcases h with ⟨_, h2⟩ | ⟨j, h1, _, _, _⟩
    · simpa [occurs_at] using h2 i
    · exfalso
      have h0 : index_loop (ascii ",") (hello.str.drop 0) 0 = -1 := by decide
      rw [h0] at h1
      omega
  · exact (String_split_degenerate 0 sample_env hello).2.2.1 never_matching (by decide) rfl

/-! ## `String_sub` -/

/-- C6: `String_sub` with a literal pattern that occurs nowhere returns a
duplicate of the string; with a literal whose first occurrence is at offset
`i` it returns `s[0:i] + r + s[i + len(p):]`, of length
`len(s) - len(p) + len(r)`; with a compiled pattern it returns a duplicate
when there is no match and otherwise makes the splice at the begin and end of
region 0. -/
theorem String_sub_first_match (env : Env) (self r : StringValue) :
    (∀ p : StringValue, (∀ i, occurs_at self.str p.str i = false) →
      String_sub env self (.string p) (.string r) = .ok (.string self.dup)) ∧
    (∀ (p : StringValue) (i : Nat), occurs_at self.str p.str i = true →
      (∀ j, j < i → occurs_at self.str p.str j = false) →
      String_sub env self (.string p) (.string r) =
        .ok (.string (StringValue.new env
          (self.str.take i ++ r.str ++ self.str.drop (i + p.str.length)))) ∧
      ((self.str.take i ++ r.str ++ self.str.drop (i + p.str.length)).length : Int) =
        self.str.length - p.str.length + r.str.length) ∧
    (∀ re : RegexpValue, re.search self.str 0 = none →
      String_sub env self (.regexp re) (.string r) = .ok (.string self.dup)) ∧
    (∀ (re : RegexpValue) (b e : Int) (bs es : List Int),
      re.search self.str 0 = some ⟨b :: bs, e :: es⟩ → 0 ≤ b → b ≤ e → e ≤ self.str.length →
      String_sub env self (.regexp re) (.string r) =
        .ok (.string (StringValue.new env
          (self.str.take b.toNat ++ r.str ++ self.str.drop e.toNat)))) := by
  refine ⟨?_, ?_, ?_, ?_⟩
  · intro p hnone
    have hidx : self.index p 0 = -1 := by
      rcases index_loop_spec p.str (self.str.drop 0) 0 with ⟨h1, _⟩ | ⟨k, _, _, hk, _⟩
      · exact h1
      · have := hnone k
        simp only [occurs_at, List.drop_zero] at this hk
        rw [hk] at this
        exact absurd this (by simp)
    simp only [String_sub, hidx, if_true]
  · intro p i hi hmin
    have hidx : self.index p 0 = (i : Int) := by
      rcases index_loop_spec p.str (self.str.drop 0) 0 with ⟨_, hnone⟩ | ⟨k, hk, _, hk3, hk4⟩
      · have := hnone i
        simp only [occurs_at, List.drop_zero] at this hi
        rw [hi] at this
        exact absurd this (by simp)
      · have hki : k = i := by
          simp only [List.drop_zero] at hk3 hk4
          rcases Nat.lt_trichotomy k i with h | h | h
          · have := hmin k h
            simp only [occurs_at] at this
            rw [hk3] at this
            exact absurd this (by simp)
          · exact h
          · have := hk4 i h
            simp only [occurs_at] at hi
            rw [hi] at this
            exact absurd this (by simp)
        have : self.index p 0 = ((0 + k : Nat) : Int) := hk
        rw [this, hki]
        simp
    have hlen := starts_with_length _ _ hi
    simp only [List.length_drop] at hlen
    have hile : i + p.str.length ≤ self.str.length := by
      by_cases hp : p.str.length = 0
      · have hp' : p.str = [] := List.length_eq_zero.mp hp
        have hi0 : i = 0 := by
          by_contra hne
          have := hmin 0 (by omega)
          simp [occurs_at, hp', starts_with] at this
        omega
      · omega
    constructor
    · have hne : ¬ ((i : Int) = -1) := by omega
      simp only [String_sub, hidx, if_neg hne, StringValue.new, StringValue.append_string,
        StringValue.append, StringValue.length, Int.toNat_ofNat]
      have h1 : ((i : Int) + (p.str.length : Int)).toNat = i + p.str.length := by omega
      rw [h1]
    · simp only [List.length_append, List.length_take, List.length_drop]
      omega
  · intro re hnone
    simp only [String_sub, Regexp_match, hnone]
  · intro re b e bs es hsome hb hbe he
    simp only [String_sub, Regexp_match, hsome, MatchDataValue.group, MatchDataValue.index,
      StringValue.new, StringValue.append_string, StringValue.append, StringValue.length]
    simp only [List.length_cons, List.getD_cons_zero, List.length_take, List.length_drop]
    have h0 : ¬ (0 ≥ bs.length + 1) := by omega
    rw [if_neg h0]
    simp only
    have h1 : (b + (((self.str.drop b.toNat).take (e.toNat - b.toNat)).length : Int)).toNat
        = e.toNat := by
      simp only [List.length_take, List.length_drop]
      omega
    rw [h1]


/-- The needle occurs nowhere when the scan from offset 0 returns -1. -/
theorem occurs_nowhere_of_index (s d : List Byte) (h : index_loop d s 0 = -1) :
    ∀ i, occurs_at s d i = false := by
  intro i
  rcases index_loop_spec d s 0 with ⟨_, h2⟩ | ⟨j, h1, _, _, _⟩
  · exact h2 i
  · rw [h] at h1
    omega

/-- C6, on `"hello"`: `sub("l", "xy")` is `"hexylo"` (the second `l` is
kept), `sub("z", "xy")` is `"hello"`; and on `"a,b,"` with a pattern matching
a comma, `sub(pattern, "--")` is `"a--b,"`. -/
theorem String_sub_first_match_samples :
    String_sub sample_env hello (.string ⟨ascii "l", .UTF_8⟩) (.string ⟨ascii "xy", .UTF_8⟩)
      = .ok (.string ⟨ascii "hexylo", .UTF_8⟩) ∧
    String_sub sample_env hello (.string ⟨ascii "z", .UTF_8⟩) (.string ⟨ascii "xy", .UTF_8⟩)
      = .ok (.string hello) ∧
    String_sub sample_env ⟨ascii "a,b,", .UTF_8⟩ (.regexp comma_pattern)
      (.string ⟨ascii "--", .UTF_8⟩) = .ok (.string ⟨ascii "a--b,", .UTF_8⟩) := by
  refine ⟨?_, ?_, ?_⟩
  · rw [((String_sub_first_match sample_env hello ⟨ascii "xy", .UTF_8⟩).2.1
      ⟨ascii "l", .UTF_8⟩ 2 (by decide) (by decide)).1]
    rfl
  · exact (String_sub_first_match sample_env hello ⟨ascii "xy", .UTF_8⟩).1
      ⟨ascii "z", .UTF_8⟩ (occurs_nowhere_of_index _ _ (by decide))
  · rw [(String_sub_first_match sample_env ⟨ascii "a,b,", .UTF_8⟩ ⟨ascii "--", .UTF_8⟩).2.2.2
      comma_pattern 1 2 [] [] (by decide) (by decide) (by decide) (by decide)]
    rfl

/-! ## `String_encode` -/

/-- A character is one to four bytes wide. -/
theorem char_width_bounds (enc : Encoding) (b : Byte) :
    1 ≤ StringValue.char_width enc b ∧ StringValue.char_width enc b ≤ 4 := by
  cases enc with
  | ASCII_8BIT => simp [StringValue.char_width]
  | UTF_8 =>
    simp only [StringValue.char_width]
    split_ifs <;> omega

/-- `String_ord` returns a code for every non-empty string. -/
theorem String_ord_ok (c : StringValue) (h : c.str ≠ []) :
    ∃ n, String_ord c = .ok (.integer n) := by
  obtain ⟨str, enc⟩ := c
  cases str with
  | nil => exact absurd rfl h
  | cons b bs =>
    have hw := char_width_bounds enc b
    have hl : (bs.take (StringValue.char_width enc b - 1)).length ≤ 3 := by
      simp only [List.length_take]
      omega
    simp only [String_ord, StringValue.chars, List.length_cons, StringValue.chars_loop,
      List.map_cons]
    generalize bs.take (StringValue.char_width enc b - 1) = l at hl
    match l, hl with
    | [], _ => exact ⟨_, rfl⟩
    | [_], _ => exact ⟨_, rfl⟩
    | [_, _], _ => exact ⟨_, rfl⟩
    | [_, _, _], _ => exact ⟨_, rfl⟩
    | _ :: _ :: _ :: _ :: _, hl => simp at hl

/-- The loop of `String_encode` raises UndefinedConversionError when some
character is longer than one byte, and passes otherwise. -/
theorem String_encode_loop_eq : ∀ (cs : List StringValue),
    String_encode_loop cs =
      if ∃ c ∈ cs, c.length > 1 then .raise .UndefinedConversionError else .ok ()
  | [] => by simp [String_encode_loop]
  | c :: cs => by
    by_cases hc : c.length > 1
    · have hne : c.str ≠ [] := by
        intro h
        simp [StringValue.length, h] at hc
      obtain ⟨n, hn⟩ := String_ord_ok c hne
      rw [String_encode_loop, if_pos hc, hn, if_pos ⟨c, List.mem_cons_self _ _, hc⟩]
    · rw [String_encode_loop, if_neg hc, String_encode_loop_eq cs]
      by_cases hex : ∃ c' ∈ cs, c'.length > 1
      · obtain ⟨c', hc', hl⟩ := hex
        rw [if_pos ⟨c', hc', hl⟩, if_pos ⟨c', List.mem_cons_of_mem _ hc', hl⟩]
      · rw [if_neg hex, if_neg]
        rintro ⟨c', hc', hl⟩
        rcases List.mem_cons.mp hc' with h | h
        · exact hc (h ▸ hl)
        · exact hex ⟨c', h, hl⟩

/-- `String_force_encoding` either resolves its argument to an encoding and
re-tags the receiver, or fails and leaves the receiver as it was. -/
theorem String_force_encoding_cases (env : Env) (self : StringValue) (arg : Value) :
    (∃ e : EncodingValue,
      (arg = .encoding e ∨
        ∃ name, arg = .string name ∧ find_encoding_by_name env name.str = .ok e) ∧
      String_force_encoding env self arg =
        (self.set_encoding e.num, .ok (.string (self.set_encoding e.num)))) ∨
    (∃ cls, String_force_encoding env self arg = (self, .raise cls)) ∨
    String_force_encoding env self arg = (self, .crash) := by
  cases arg with
  | encoding e => exact Or.inl ⟨e, Or.inl rfl, rfl⟩
  | string name =>
    cases h : find_encoding_by_name env name.str with
    | ok e =>
      refine Or.inl ⟨e, Or.inr ⟨name, rfl, h⟩, ?_⟩
      simp only [String_force_encoding, h]
    | raise cls =>
      refine Or.inr (Or.inl ⟨cls, ?_⟩)
      simp only [String_force_encoding, h]
    | crash =>
      refine Or.inr (Or.inr ?_)
      simp only [String_force_encoding, h]
  | _ => exact Or.inr (Or.inl ⟨.TypeError, rfl⟩)

/-- An argument that designates an encoding makes `String_force_encoding`
re-tag the receiver with it. -/
theorem String_force_encoding_of_resolves (env : Env) (self : StringValue) (arg : Value)
    (e : EncodingValue) (h : resolves_to env arg e) :
    String_force_encoding env self arg =
      (self.set_encoding e.num, .ok (.string (self.set_encoding e.num))) := by
  rcases h with h | ⟨name, h, hfind⟩
  · rw [h]
    rfl
  · rw [h]
    simp only [String_force_encoding, hfind]

/-- C7: `String_encode` of a UTF-8 string into ASCII-8BIT raises
UndefinedConversionError exactly when some character of the receiver is longer
than one byte, and otherwise succeeds; of an ASCII-8BIT string into UTF-8, and
into the receiver's own encoding, it succeeds; every success returns the bytes
of the receiver under the target tag; the receiver is never changed. -/
theorem String_encode_spec (env : Env) (self : StringValue) :
    (∀ (arg : Value) (e : EncodingValue), resolves_to env arg e →
      self.encoding = .UTF_8 → e.num = .ASCII_8BIT →
      ((String_encode env self arg).2 = .raise .UndefinedConversionError ↔
        ∃ c ∈ self.chars, c.length > 1) ∧
      ((¬ ∃ c ∈ self.chars, c.length > 1) →
        (String_encode env self arg).2 = .ok (.string ⟨self.str, .ASCII_8BIT⟩))) ∧
    (∀ (arg : Value) (e : EncodingValue), resolves_to env arg e →
      self.encoding = .ASCII_8BIT → e.num = .UTF_8 →
      (String_encode env self arg).2 = .ok (.string ⟨self.str, .UTF_8⟩)) ∧
    (∀ (arg : Value) (e : EncodingValue), resolves_to env arg e →
      e.num = self.encoding →
      (String_encode env self arg).2 = .ok (.string ⟨self.str, self.encoding⟩)) ∧
    (∀ (arg v : Value), (String_encode env self arg).2 = .ok v →
      ∃ e : EncodingValue, resolves_to env arg e ∧ v = .string ⟨self.str, e.num⟩) ∧
    (∀ arg : Value, (String_encode env self arg).1 = self) := by
  obtain ⟨str, enc⟩ := self
  refine ⟨?_, ?_, ?_, ?_, ?_⟩
  · intro arg e hres henc he
    simp only at henc
    subst henc
    simp only [String_encode, String_force_encoding_of_resolves env _ arg e hres,
      StringValue.dup, StringValue.set_encoding, he, String_encode_loop_eq]
    simp only [reduceCtorEq, if_false, and_self, if_true]
    by_cases hex : ∃ c ∈ StringValue.chars ⟨str, .UTF_8⟩, c.length > 1
    · simp only [if_pos hex]
      simp [hex]
    · simp only [if_neg hex]
      simp [hex]
  · intro arg e hres henc he
    simp only at henc
    subst henc
    simp only [String_encode, String_force_encoding_of_resolves env _ arg e hres,
      StringValue.dup, StringValue.set_encoding, he]
    simp
  · intro arg e hres he
    simp only at he
    simp only [String_encode, String_force_encoding_of_resolves env _ arg e hres,
      StringValue.dup, StringValue.set_encoding, he]
    simp
  · intro arg v hv
    rcases String_force_encoding_cases env ⟨str, enc⟩ arg with ⟨e, harg, hfe⟩ | ⟨cls, hfe⟩ | hfe
    · refine ⟨e, harg, ?_⟩
      simp only [String_encode, StringValue.dup, hfe, StringValue.set_encoding] at hv
      split_ifs at hv with h1 h2 h3
      · simp only [Result.ok.injEq] at hv
        exact hv.symm
      · revert hv
        cases String_encode_loop (StringValue.chars ⟨str, enc⟩) <;> intro hv
        · simp only [Result.ok.injEq] at hv
          exact hv.symm
        · cases hv
        · cases hv
      · simp only [Result.ok.injEq] at hv
        exact hv.symm
    · simp only [String_encode, StringValue.dup, hfe] at hv
      cases hv
    · simp only [String_encode, StringValue.dup, hfe] at hv
      cases hv
  · intro arg
    rcases String_force_encoding_cases env ⟨str, enc⟩ arg with ⟨e, _, hfe⟩ | ⟨cls, hfe⟩ | hfe
    · simp only [String_encode, StringValue.dup, hfe, StringValue.set_encoding]
      split_ifs
      · rfl
      · cases String_encode_loop (StringValue.chars ⟨str, enc⟩) <;> rfl
      · rfl
      · rfl
    · simp only [String_encode, StringValue.dup, hfe]
    · simp only [String_encode, StringValue.dup, hfe]

/-- C7, on `"é"` (one character of two bytes) and on `"hello"`: encoding
`"é"` into `"binary"` raises UndefinedConversionError, encoding `"hello"`
into ASCII-8BIT and back into UTF-8 succeeds with the same bytes. -/
theorem String_encode_spec_samples :
    (String_encode sample_env e_acute (.string ⟨ascii "binary", .UTF_8⟩)).2
      = .raise .UndefinedConversionError ∧
    (String_encode sample_env hello (.encoding ⟨.ASCII_8BIT, []⟩)).2
      = .ok (.string ⟨ascii "hello", .ASCII_8BIT⟩) ∧
    (String_encode sample_env ⟨ascii "hello", .ASCII_8BIT⟩ (.encoding ⟨.UTF_8, []⟩)).2
      = .ok (.string hello) := by
  refine ⟨?_, ?_, ?_⟩
  · refine ((String_encode_spec sample_env e_acute).1 (.string ⟨ascii "binary", .UTF_8⟩)
      ⟨.ASCII_8BIT, [⟨ascii "ASCII-8BIT", .UTF_8⟩, ⟨ascii "BINARY", .UTF_8⟩]⟩
      (Or.inr ⟨_, rfl, by decide⟩) rfl rfl).1.mpr ?_
    exact ⟨e_acute, by decide, by decide⟩
  · refine ((String_encode_spec sample_env hello).1 (.encoding ⟨.ASCII_8BIT, []⟩)
      ⟨.ASCII_8BIT, []⟩ (Or.inl rfl) rfl rfl).2 ?_
    decide
  · exact (String_encode_spec sample_env ⟨ascii "hello", .ASCII_8BIT⟩).2.1
      (.encoding ⟨.UTF_8, []⟩) ⟨.UTF_8, []⟩ (Or.inl rfl) rfl rfl

/-! ## `String_force_encoding` -/

/-- Two bytes have the same lower-case form exactly when they are the same
letter. -/
theorem tolower_eq_iff (x y : Nat) : tolower x = tolower y ↔ same_letter x y := by
  simp only [tolower, same_letter]
  split_ifs <;> omega

/-- Two names have the same lower-case form exactly when they are equal
ignoring ASCII letter case. -/
theorem lcase_string_eq_iff : ∀ (a b : List Byte),
    lcase_string a = lcase_string b ↔ eq_ignore_case a b
  | [], [] => by simp [lcase_string, eq_ignore_case]
  | [], _ :: _ => by simp [lcase_string, eq_ignore_case]
  | _ :: _, [] => by simp [lcase_string, eq_ignore_case]
  | x :: a, y :: b => by
    have ih := lcase_string_eq_iff a b
    simp only [lcase_string, eq_ignore_case] at ih ⊢
    simp only [List.map_cons, List.cons.injEq, List.forall₂_cons, tolower_eq_iff, ih]

/-- The inner loop of `find_encoding_by_name` succeeds exactly when one of the
names has the lower-case form sought. -/
theorem find_encoding_names_loop_iff (l : List Byte) : ∀ (names : List StringValue),
    find_encoding_names_loop l names = true ↔ ∃ n ∈ names, lcase_string n.str = l
  | [] => by simp [find_encoding_names_loop]
  | n :: rest => by
    by_cases h : lcase_string n.str = l
    · simp [find_encoding_names_loop, h]
    · simp [find_encoding_names_loop, h, find_encoding_names_loop_iff l rest]

/-- The outer loop of `find_encoding_by_name` returns the first encoding of
the list on which the inner loop succeeds. -/
theorem find_encoding_list_loop_some (l : List Byte) (e : EncodingValue) :
    ∀ (list : List EncodingValue),
    find_encoding_list_loop l list = some e ↔
      ∃ before after, list = before ++ e :: after ∧
        find_encoding_names_loop l e.names = true ∧
        ∀ e' ∈ before, find_encoding_names_loop l e'.names = false
  | [] => by simp [find_encoding_list_loop]
  | x :: rest => by
    by_cases h : find_encoding_names_loop l x.names = true
    · simp only [find_encoding_list_loop, h, if_true, Option.some.injEq]
      constructor
      · intro hx
        subst hx
        exact ⟨[], rest, rfl, h, by simp⟩
      · rintro ⟨before, after, hlist, he, hbefore⟩
        cases before with
        | nil =>
          simp only [List.nil_append, List.cons.injEq] at hlist
          exact hlist.1
        | cons b bs =>
          simp only [List.cons_append, List.cons.injEq] at hlist
          have := hbefore b (List.mem_cons_self _ _)
          rw [← hlist.1, h] at this
          exact absurd this (by simp)
    · simp only [find_encoding_list_loop, h, Bool.false_eq_true, if_false]
      rw [find_encoding_list_loop_some l e rest]
      constructor
      · rintro ⟨before, after, hlist, he, hbefore⟩
        refine ⟨x :: before, after, by simp [hlist], he, ?_⟩
        intro e' he'
        rcases List.mem_cons.mp he' with h' | h'
        · rw [h']
          simpa using h
        · exact hbefore e' h'
      · rintro ⟨before, after, hlist, he, hbefore⟩
        cases before with
        | nil =>
          simp only [List.nil_append, List.cons.injEq] at hlist
          rw [hlist.1] at h
          exact absurd he h
        | cons b bs =>
          simp only [List.cons_append, List.cons.injEq] at hlist
          exact ⟨bs, after, hlist.2, he, fun e' he' => hbefore e' (List.mem_cons_of_mem _ he')⟩

/-- The outer loop of `find_encoding_by_name` finds nothing exactly when the
inner loop fails on every encoding of the list. -/
theorem find_encoding_list_loop_none (l : List Byte) : ∀ (list : List EncodingValue),
    find_encoding_list_loop l list = none ↔
      ∀ e ∈ list, find_encoding_names_loop l e.names = false
  | [] => by simp [find_encoding_list_loop]
  | x :: rest => by
    by_cases h : find_encoding_names_loop l x.names = true
    · simp [find_encoding_list_loop, h]
    · simp [find_encoding_list_loop, h, find_encoding_list_loop_none l rest]

/-- The inner loop of `find_encoding_by_name`, given the lowered query,
succeeds exactly on the encodings that have the query among their names. -/
theorem find_encoding_names_loop_has_name (e : EncodingValue) (name : List Byte) :
    find_encoding_names_loop (lcase_string name) e.names = true ↔ has_name e name := by
  rw [find_encoding_names_loop_iff]
  simp only [has_name, lcase_string_eq_iff]

/-- `find_encoding_by_name` returns the first encoding of the registry that
has the query among its names. -/
theorem find_encoding_by_name_ok_iff (env : Env) (name : List Byte) (e : EncodingValue) :
    find_encoding_by_name env name = .ok e ↔
      ∃ before after, env.encodings = before ++ e :: after ∧ has_name e name ∧
        ∀ e' ∈ before, ¬ has_name e' name := by
  simp only [← find_encoding_names_loop_has_name, Bool.not_eq_true]
  rw [← find_encoding_list_loop_some]
  simp only [find_encoding_by_name]
  cases find_encoding_list_loop (lcase_string name) env.encodings with
  | none => simp
  | some e' => simp

/-- `find_encoding_by_name` raises ArgumentError exactly when no encoding of
the registry has the query among its names. -/
theorem find_encoding_by_name_raise_iff (env : Env) (name : List Byte) :
    find_encoding_by_name env name = .raise .ArgumentError ↔
      ∀ e ∈ env.encodings, ¬ has_name e name := by
  simp only [← find_encoding_names_loop_has_name, Bool.not_eq_true]
  rw [← find_encoding_list_loop_none]
  simp only [find_encoding_by_name]
  cases find_encoding_list_loop (lcase_string name) env.encodings with
  | none => simp
  | some e' => simp


/-- C8: `find_encoding_by_name` resolves a name exactly when some registered
encoding has it among its names, ignoring ASCII letter case; it returns the
first such encoding of the registry, the same for every letter case of the
query; when there is none `String_force_encoding` raises ArgumentError and
leaves the receiver as it was; a successful `String_force_encoding` keeps the
bytes and replaces the tag. -/
theorem String_force_encoding_name (env : Env) (self name : StringValue) :
    ((∃ e, find_encoding_by_name env name.str = .ok e) ↔
      ∃ e ∈ env.encodings, has_name e name.str) ∧
    (∀ e, find_encoding_by_name env name.str = .ok e ↔
      ∃ before after, env.encodings = before ++ e :: after ∧ has_name e name.str ∧
        ∀ e' ∈ before, ¬ has_name e' name.str) ∧
    (∀ name' : StringValue, eq_ignore_case name.str name'.str →
      find_encoding_by_name env name'.str = find_encoding_by_name env name.str) ∧
    ((¬ ∃ e ∈ env.encodings, has_name e name.str) →
      String_force_encoding env self (.string name) = (self, .raise .ArgumentError)) ∧
    (∀ (arg : Value) (self' : StringValue) (v : Value),
      String_force_encoding env self arg = (self', .ok v) →
      ∃ e, resolves_to env arg e ∧ self' = ⟨self.str, e.num⟩ ∧ v = .string self') := by
  refine ⟨?_, find_encoding_by_name_ok_iff env name.str, ?_, ?_, ?_⟩
  · constructor
    · rintro ⟨e, he⟩
      obtain ⟨before, after, hlist, hname, _⟩ := (find_encoding_by_name_ok_iff env _ e).mp he
      exact ⟨e, by simp [hlist], hname⟩
    · rintro ⟨e, he, hname⟩
      cases h : find_encoding_list_loop (lcase_string name.str) env.encodings with
      | some e' => exact ⟨e', by simp only [find_encoding_by_name, h]⟩
      | none =>
        exfalso
        have hraise : find_encoding_by_name env name.str = .raise .ArgumentError := by
          simp only [find_encoding_by_name, h]
        exact (find_encoding_by_name_raise_iff env _).mp hraise e he hname
  · intro name' hcase
    have hl := (lcase_string_eq_iff _ _).mpr hcase
    simp only [find_encoding_by_name, hl]
  · intro hnone
    have hraise : find_encoding_by_name env name.str = .raise .ArgumentError :=
      (find_encoding_by_name_raise_iff env _).mpr (fun e he hname => hnone ⟨e, he, hname⟩)
    simp only [String_force_encoding, hraise]
  · intro arg self' v h
    rcases String_force_encoding_cases env self arg with ⟨e, harg, hfe⟩ | ⟨cls, hfe⟩ | hfe
    · rw [hfe] at h
      simp only [Prod.mk.injEq, Result.ok.injEq] at h
      exact ⟨e, harg, h.1.symm, by rw [← h.2, h.1]⟩
    · rw [hfe] at h
      simp only [Prod.mk.injEq] at h
      exact absurd h.2 (by simp)
    · rw [hfe] at h
      simp only [Prod.mk.injEq] at h
      exact absurd h.2 (by simp)

/-- C8, in the sample registry: `"utf-8"` resolves as `"UTF-8"` does, to the
UTF-8 encoding, and `force_encoding("latin1")` raises ArgumentError and leaves
`"hello"` as it was. -/
theorem String_force_encoding_name_samples :
    find_encoding_by_name sample_env (ascii "utf-8")
      = .ok ⟨.UTF_8, [⟨ascii "UTF-8", .UTF_8⟩]⟩ ∧
    String_force_encoding sample_env hello (.string ⟨ascii "latin1", .UTF_8⟩)
      = (hello, .raise .ArgumentError) := by
  constructor
  · rw [(String_force_encoding_name sample_env hello ⟨ascii "UTF-8", .UTF_8⟩).2.2.1
      ⟨ascii "utf-8", .UTF_8⟩ ((lcase_string_eq_iff _ _).mp (by decide))]
    decide
  · refine (String_force_encoding_name sample_env hello ⟨ascii "latin1", .UTF_8⟩).2.2.2.1 ?_
    rintro ⟨e, he, hname⟩
    exact (find_encoding_by_name_raise_iff sample_env (ascii "latin1")).mp (by decide) e he hname


/-! ## `String_ljust` -/

/-- There are no more characters than bytes. -/
theorem chars_loop_length_le (enc : Encoding) : ∀ (fuel : Nat) (bytes : List Byte),
    (StringValue.chars_loop enc fuel bytes).length ≤ bytes.length
  | 0, _ => by simp [StringValue.chars_loop]
  | _ + 1, [] => by simp [StringValue.chars_loop]
  | fuel + 1, b :: bs => by
    have ih := chars_loop_length_le enc fuel (bs.drop (StringValue.char_width enc b - 1))
    simp only [StringValue.chars_loop, List.length_cons, List.length_drop] at ih ⊢
    omega

/-- When every byte is a character of its own there are as many characters
as bytes. -/
theorem chars_loop_length_eq (enc : Encoding) : ∀ (fuel : Nat) (bytes : List Byte),
    bytes.length ≤ fuel → (∀ b ∈ bytes, StringValue.char_width enc b = 1) →
    (StringValue.chars_loop enc fuel bytes).length = bytes.length
  | 0, bytes, h, _ => by
    have : bytes = [] := List.length_eq_zero.mp (by omega)
    simp [StringValue.chars_loop, this]
  | _ + 1, [], _, _ => by simp [StringValue.chars_loop]
  | fuel + 1, b :: bs, h, hw => by
    have hb : StringValue.char_width enc b = 1 := hw b (List.mem_cons_self _ _)
    have ih := chars_loop_length_eq enc fuel bs (by simpa using h)
      (fun x hx => hw x (List.mem_cons_of_mem _ hx))
    simp only [StringValue.chars_loop, hb, List.length_cons, Nat.sub_self, List.drop_zero, ih]

/-- The loop of `String_ljust` with a non-empty pad string ends within one
iteration per missing byte, with a buffer of `max(length, n)` bytes that are
bytes of the receiver or of the pad string, under the tag of the receiver. -/
theorem String_ljust_loop_length (length : Nat) (padstr : StringValue) (hpad : padstr.str ≠ []) :
    ∀ (fuel : Nat) (copy : StringValue), length - copy.str.length ≤ fuel →
    ∃ r, String_ljust_loop length padstr fuel copy = some r ∧
      r.str.length = max length copy.str.length ∧ r.encoding = copy.encoding ∧
      ∀ b ∈ r.str, b ∈ copy.str ∨ b ∈ padstr.str := by
  have hpos : 0 < padstr.str.length := List.length_pos.mpr hpad
  intro fuel
  induction fuel with
  | zero =>
    intro copy h
    refine ⟨copy, ?_, ?_, rfl, fun b hb => Or.inl hb⟩
    · simp only [String_ljust_loop, StringValue.length]
      rw [if_neg (by omega)]
    · omega
  | succ fuel ih =>
    intro copy h
    by_cases hlt : copy.str.length < length
    · simp only [String_ljust_loop, StringValue.length, if_pos hlt]
      by_cases htr : copy.str.length + padstr.str.length > length
      · simp only [htr, decide_True, if_true, StringValue.append_string, StringValue.truncate]
        obtain ⟨r, hr, hl, he, hb⟩ := ih ⟨(copy.str ++ padstr.str).take length, copy.encoding⟩
          (by simp only [List.length_take, List.length_append]; omega)
        refine ⟨r, hr, ?_, he, ?_⟩
        · simp only [List.length_take, List.length_append] at hl
          omega
        · intro b hbr
          rcases hb b hbr with h1 | h1
          · exact List.mem_append.mp (List.mem_of_mem_take h1)
          · exact Or.inr h1
      · simp only [htr, decide_False, Bool.false_eq_true, if_false, StringValue.append_string]
        obtain ⟨r, hr, hl, he, hb⟩ := ih ⟨copy.str ++ padstr.str, copy.encoding⟩
          (by simp only [List.length_append]; omega)
        refine ⟨r, hr, ?_, he, ?_⟩
        · simp only [List.length_append] at hl
          omega
        · intro b hbr
          rcases hb b hbr with h1 | h1
          · exact List.mem_append.mp h1
          · exact Or.inr h1
    · refine ⟨copy, ?_, ?_, rfl, fun b hb => Or.inl hb⟩
      · simp only [String_ljust_loop, StringValue.length, if_neg hlt]
      · omega


/-- C9 as stated fails: `"é".ljust(4)` under UTF-8 is padded up to 4 bytes,
`"é"` and two blanks, which is 3 characters and not `max(4, 1) = 4`. -/
theorem String_ljust_multibyte :
    String_ljust 2 sample_env e_acute (.integer 4) (some (.string ⟨ascii " ", .UTF_8⟩))
      = some (.ok (.string ⟨[0xC3, 0xA9, 32, 32], .UTF_8⟩)) ∧
    e_acute.chars.length = 1 ∧
    (StringValue.chars ⟨[0xC3, 0xA9, 32, 32], .UTF_8⟩).length = 3 ∧
    ((StringValue.chars ⟨[0xC3, 0xA9, 32, 32], .UTF_8⟩).length : Int)
      ≠ max 4 (e_acute.chars.length : Int) := by
  refine ⟨rfl, by decide, by decide, by decide⟩

/-- C9, amended: `String_ljust` pads by byte count.  When every byte of the
receiver and of the non-empty pad string is a character of its own under the
receiver's encoding (always so under ASCII-8BIT), the character length of the
result is `max(t, character length of the receiver)`; and for every receiver,
when its character length is already `≥ t` the result is an unmodified
duplicate. -/
theorem String_ljust_char_length (env : Env) (self pad : StringValue) (n : Int) (fuel : Nat) :
    (pad.str ≠ [] → n.toNat ≤ fuel →
      (∀ b ∈ self.str ++ pad.str, StringValue.char_width self.encoding b = 1) →
      ∃ r, String_ljust fuel env self (.integer n) (some (.string pad))
          = some (.ok (.string r)) ∧
        (r.chars.length : Int) = max n (self.chars.length : Int)) ∧
    ((self.chars.length : Int) ≥ n →
      String_ljust fuel env self (.integer n) (some (.string pad))
        = some (.ok (.string self.dup))) := by
  have hlen : (if n < 0 then 0 else n.toNat) = n.toNat := by
    split <;> omega
  constructor
  · intro hpad hfuel hw
    obtain ⟨r, hr, hl, he, hb⟩ := String_ljust_loop_length n.toNat pad hpad fuel self.dup
      (by omega)
    refine ⟨r, ?_, ?_⟩
    · simp only [String_ljust, hlen, hr, Option.map_some']
    · have hself : self.chars.length = self.str.length := by
        simp only [StringValue.chars, List.length_map]
        exact chars_loop_length_eq _ _ _ (le_refl _)
          (fun b hb' => hw b (List.mem_append_left _ hb'))
      have hres : r.chars.length = r.str.length := by
        simp only [StringValue.chars, List.length_map]
        refine chars_loop_length_eq _ _ _ (le_refl _) (fun b hb' => ?_)
        rw [he]
        exact hw b (List.mem_append.mpr (hb b hb'))
      rw [hself, hres, hl]
      simp only [StringValue.dup]
      omega
  · intro hge
    have hle : self.chars.length ≤ self.str.length := by
      simp only [StringValue.chars, List.length_map]
      exact chars_loop_length_le _ _ _
    have hnot : ¬ (StringValue.length self.dup < n.toNat) := by
      simp only [StringValue.length, StringValue.dup]
      omega
    simp only [String_ljust, hlen]
    cases fuel with
    | zero => simp only [String_ljust_loop, if_neg hnot, Option.map_some']
    | succ f => simp only [String_ljust_loop, if_neg hnot, Option.map_some']

/-- C9, on `"hello"`: `ljust(8, "ab")` has 8 characters, and `ljust(3, "ab")`
is `"hello"`. -/
theorem String_ljust_char_length_hello :
    (∃ r, String_ljust 8 sample_env hello (.integer 8) (some (.string ⟨ascii "ab", .UTF_8⟩))
        = some (.ok (.string r)) ∧ (r.chars.length : Int) = 8) ∧
    String_ljust 8 sample_env hello (.integer 3) (some (.string ⟨ascii "ab", .UTF_8⟩))
      = some (.ok (.string hello)) := by
  constructor
  · obtain ⟨r, hr, hl⟩ := (String_ljust_char_length sample_env hello ⟨ascii "ab", .UTF_8⟩ 8 8).1
      (by decide) (by decide) (by decide)
    refine ⟨r, hr, ?_⟩
    rw [hl]
    decide
  · exact (String_ljust_char_length sample_env hello ⟨ascii "ab", .UTF_8⟩ 3 8).2 (by decide)

/-! ## `IntegerValue` -/

/-- C10: for every Integer receiver `IntegerValue::div` by the Integer 0
raises ZeroDivisionError, while `IntegerValue::mod` by the Integer 0 computes
`%` with a zero divisor and traps: it raises nothing. -/
theorem IntegerValue_div_mod_zero (env : Env) (self : Int) :
    IntegerValue.div env self (.integer 0) = .raise .ZeroDivisionError ∧
    IntegerValue.mod env self (.integer 0) = .crash ∧
    IntegerValue.mod env self (.integer 0) ≠ .raise .ZeroDivisionError := by
  refine ⟨rfl, rfl, ?_⟩
  intro h
  cases h



/-! ## Integer and Float operators -/

/-- C11 as stated fails: `1 + 2.0` does not go through `coerce`; it raises
TypeError where the claim gives the Float sum of the coerced pair. -/
theorem IntegerValue_add_float :
    IntegerValue.add builtin_env 1 (.float two) = .raise .TypeError ∧
    IntegerValue.add builtin_env 1 (.float two)
      ≠ .ok (.float (sample_fpu.add (Double.of_int64 1) two)) := by
  refine ⟨rfl, ?_⟩
  intro h
  cases h

/-- C11, amended: with a Float argument only `/` follows the coercion
protocol: `IntegerValue::div` sends `coerce` to the argument and `/` to the
coerced receiver, and returns what `Float_div` returns on the pair, a Float;
`+`, `-`, `*`, `%` and `**` test the argument for an Integer and raise
TypeError. -/
theorem IntegerValue_float_argument (fpu : Fpu) (env : Env) (n : Int) (f : Double) :
    IntegerValue.add env n (.float f) = .raise .TypeError ∧
    IntegerValue.sub env n (.float f) = .raise .TypeError ∧
    IntegerValue.mul env n (.float f) = .raise .TypeError ∧
    IntegerValue.mod env n (.float f) = .raise .TypeError ∧
    IntegerValue.pow fpu env n (.float f) = .raise .TypeError ∧
    (dispatches_coerce env → dispatches_float_div fpu env →
      IntegerValue.div env n (.float f) = Float_div fpu env (Double.of_int64 n) (.float f) ∧
      IntegerValue.div env n (.float f) =
        .ok (.float (if Double.eq f Double.zero then Double.nan
          else fpu.div (Double.of_int64 n) f))) := by
  refine ⟨rfl, rfl, rfl, rfl, rfl, ?_⟩
  intro hc hd
  obtain ⟨_, hr, _, hs⟩ := hc
  have hdiv : IntegerValue.div env n (.float f)
      = Float_div fpu env (Double.of_int64 n) (.float f) := by
    simp only [IntegerValue.div, hr, if_true, hs, Float_coerce]
    exact hd _ _
  refine ⟨hdiv, ?_⟩
  rw [hdiv]
  simp only [Float_div, Float_arith]
  split <;> rfl

/-- C11, on `1 / 2.0` with the built-in methods bound: the quotient of `1.0`
by `2.0`; and `1 - 2.0` raises TypeError. -/
theorem IntegerValue_float_argument_samples :
    IntegerValue.div builtin_env 1 (.float two) = .ok (.float (sample_fpu.div one two)) ∧
    IntegerValue.sub builtin_env 1 (.float two) = .raise .TypeError := by
  constructor
  · have h := ((IntegerValue_float_argument sample_fpu builtin_env 1 two).2.2.2.2.2
      ⟨fun _ => rfl, fun _ => rfl, fun _ _ => rfl, fun _ _ => rfl⟩ (fun _ _ => rfl)).2
    rw [h]
    rfl
  · exact (IntegerValue_float_argument sample_fpu builtin_env 1 two).2.1

/-- With `coerce` bound, the helper turns an Integer right operand into the
Float of the same value and keeps the Float left operand. -/
theorem coerce_integer (env : Env) (h : dispatches_coerce env) (n : Int) (f : Double) :
    coerce env (.integer n) (.float f) = .ok (.float f, .float (Double.of_int64 n)) := by
  obtain ⟨hr, _, hs, _⟩ := h
  simp only [coerce, hr, if_true, hs, IntegerValue.coerce]

/-- The order of two non-NaN `double`s: exactly one of `<`, `==`, `>` holds. -/
theorem Double_trichotomy (a b : Double) (ha : a.is_nan = false) (hb : b.is_nan = false) :
    (Double.lt a b = true ∨ Double.eq a b = true ∨ Double.gt a b = true) ∧
    (Double.lt a b = true → Double.eq a b = false) ∧
    (Double.gt a b = true → Double.lt a b = false ∧ Double.eq a b = false) := by
  cases a with
  | nan => simp [Double.is_nan] at ha
  | infinity n1 =>
    cases b with
    | nan => simp [Double.is_nan] at hb
    | infinity n2 => cases n1 <;> cases n2 <;> simp [Double.lt, Double.eq, Double.gt]
    | finite n2 m2 => cases n1 <;> simp [Double.lt, Double.eq, Double.gt]
  | finite n1 m1 =>
    cases b with
    | nan => simp [Double.is_nan] at hb
    | infinity n2 => cases n2 <;> simp [Double.lt, Double.eq, Double.gt]
    | finite n2 m2 =>
      simp only [Double.lt, Double.eq, Double.gt, decide_eq_true_eq, decide_eq_false_iff_not]
      refine ⟨?_, ?_, ?_⟩
      · rcases lt_trichotomy (Double.value n1 m1) (Double.value n2 m2) with h | h | h
        · exact Or.inl h
        · exact Or.inr (Or.inl h)
        · exact Or.inr (Or.inr h)
      · intro h
        exact ne_of_lt h
      · intro h
        exact ⟨not_lt_of_gt h, ne_of_gt h⟩


/-- C12: when an operand is NaN, `Float_cmp`, `Float_lt`, `Float_lte`,
`Float_gt` and `Float_gte` return nil, for a Float argument and for an Integer
argument (which `coerce` turns into the Float of the same value); when neither
operand is NaN, `Float_cmp` returns -1, 0 or 1 as the receiver is less than,
equal to or greater than the argument, and one of the three holds. -/
theorem Float_comparison_nan (env : Env) (f g : Double) :
    ((f.is_nan = true ∨ g.is_nan = true) →
      Float_cmp env f (.float g) = .ok .nil ∧ Float_lt env f (.float g) = .ok .nil ∧
      Float_lte env f (.float g) = .ok .nil ∧ Float_gt env f (.float g) = .ok .nil ∧
      Float_gte env f (.float g) = .ok .nil) ∧
    (∀ n : Int, dispatches_coerce env →
      Float_cmp env f (.integer n) = Float_cmp env f (.float (Double.of_int64 n)) ∧
      Float_lt env f (.integer n) = Float_lt env f (.float (Double.of_int64 n)) ∧
      Float_lte env f (.integer n) = Float_lte env f (.float (Double.of_int64 n)) ∧
      Float_gt env f (.integer n) = Float_gt env f (.float (Double.of_int64 n)) ∧
      Float_gte env f (.integer n) = Float_gte env f (.float (Double.of_int64 n))) ∧
    (∀ n : Int, dispatches_coerce env → f.is_nan = true →
      Float_cmp env f (.integer n) = .ok .nil ∧ Float_lt env f (.integer n) = .ok .nil ∧
      Float_lte env f (.integer n) = .ok .nil ∧ Float_gt env f (.integer n) = .ok .nil ∧
      Float_gte env f (.integer n) = .ok .nil) ∧
    (f.is_nan = false → g.is_nan = false →
      (Double.lt f g = true → Float_cmp env f (.float g) = .ok (.integer (-1))) ∧
      (Double.eq f g = true → Float_cmp env f (.float g) = .ok (.integer 0)) ∧
      (Double.gt f g = true → Float_cmp env f (.float g) = .ok (.integer 1)) ∧
      (Double.lt f g = true ∨ Double.eq f g = true ∨ Double.gt f g = true)) := by
  have hnan : ∀ g' : Double, (f.is_nan = true ∨ g'.is_nan = true) →
      Float_cmp env f (.float g') = .ok .nil ∧ Float_lt env f (.float g') = .ok .nil ∧
      Float_lte env f (.float g') = .ok .nil ∧ Float_gt env f (.float g') = .ok .nil ∧
      Float_gte env f (.float g') = .ok .nil := by
    intro g' h
    have hor : (f.is_nan || g'.is_nan) = true := by
      rcases h with h | h <;> simp [h]
    simp only [Float_cmp, Float_lt, Float_lte, Float_gt, Float_gte,
      NAT_DEFINE_FLOAT_COMPARISON_METHOD, hor, if_true, and_self]
  have hint : ∀ n : Int, dispatches_coerce env →
      Float_cmp env f (.integer n) = Float_cmp env f (.float (Double.of_int64 n)) ∧
      Float_lt env f (.integer n) = Float_lt env f (.float (Double.of_int64 n)) ∧
      Float_lte env f (.integer n) = Float_lte env f (.float (Double.of_int64 n)) ∧
      Float_gt env f (.integer n) = Float_gt env f (.float (Double.of_int64 n)) ∧
      Float_gte env f (.integer n) = Float_gte env f (.float (Double.of_int64 n)) := by
    intro n hd
    simp only [Float_cmp, Float_lt, Float_lte, Float_gt, Float_gte,
      NAT_DEFINE_FLOAT_COMPARISON_METHOD, coerce_integer env hd, and_self]
  refine ⟨hnan g, hint, ?_, ?_⟩
  · intro n hd hf
    obtain ⟨h1, h2, h3, h4, h5⟩ := hint n hd
    obtain ⟨k1, k2, k3, k4, k5⟩ := hnan (Double.of_int64 n) (Or.inl hf)
    exact ⟨h1.trans k1, h2.trans k2, h3.trans k3, h4.trans k4, h5.trans k5⟩
  · intro hf hg
    obtain ⟨htri, hlt, hgt⟩ := Double_trichotomy f g hf hg
    have hor : (f.is_nan || g.is_nan) = false := by simp [hf, hg]
    refine ⟨?_, ?_, ?_, htri⟩
    · intro h
      simp [Float_cmp, hor, h]
    · intro h
      have hnlt : Double.lt f g = false := by
        cases hl : Double.lt f g with
        | false => rfl
        | true => rw [hlt hl] at h; exact absurd h (by simp)
      simp [Float_cmp, hor, h, hnlt]
    · intro h
      obtain ⟨h1, h2⟩ := hgt h
      simp [Float_cmp, hor, h1, h2]

/-- C12, on NaN against `1.0` and against the Integer 2, and on `1.0 <=> 2.0`. -/
theorem Float_comparison_nan_samples :
    Float_cmp builtin_env .nan (.float one) = .ok .nil ∧
    Float_lt builtin_env one (.float .nan) = .ok .nil ∧
    Float_gte builtin_env .nan (.integer 2) = .ok .nil ∧
    Float_cmp builtin_env one (.float two) = .ok (.integer (-1)) := by
  refine ⟨?_, ?_, ?_, ?_⟩
  · exact ((Float_comparison_nan builtin_env .nan one).1 (Or.inl rfl)).1
  · exact ((Float_comparison_nan builtin_env one .nan).1 (Or.inr rfl)).2.1
  · exact ((Float_comparison_nan builtin_env .nan one).2.2.1 2
      ⟨fun _ => rfl, fun _ => rfl, fun _ _ => rfl, fun _ _ => rfl⟩ rfl).2.2.2.2
  · exact ((Float_comparison_nan builtin_env one two).2.2.2 rfl rfl).1 (by decide)


/-- C13 as stated fails: for `1.0 < "hello"` coercion leaves the Float left
operand and the String right operand, and `Float_lt` raises ArgumentError
where the claim gives nil. -/
theorem Float_lt_string :
    coerce sample_env (.string hello) (.float one) = .ok (.float one, .string hello) ∧
    Float_lt sample_env one (.string hello) = .raise .ArgumentError ∧
    Float_lt sample_env one (.string hello) ≠ .ok .nil := by
  refine ⟨rfl, rfl, ?_⟩
  intro h
  cases h

/-- C13, amended: when coercion of a non-Float argument yields a Float left
operand and a right operand that is still not a Float, `Float_cmp` returns
nil, `Float_lt`, `Float_lte`, `Float_gt` and `Float_gte` raise ArgumentError,
and `Float_add`, `Float_sub`, `Float_mul` and `Float_div` raise TypeError. -/
theorem Float_non_numeric_operand (fpu : Fpu) (env : Env) (f l : Double) (arg r : Value)
    (harg : arg.is_float = false) (hco : coerce env arg (.float f) = .ok (.float l, r))
    (hr : r.is_float = false) :
    Float_cmp env f arg = .ok .nil ∧
    Float_lt env f arg = .raise .ArgumentError ∧
    Float_lte env f arg = .raise .ArgumentError ∧
    Float_gt env f arg = .raise .ArgumentError ∧
    Float_gte env f arg = .raise .ArgumentError ∧
    Float_add fpu env f arg = .raise .TypeError ∧
    Float_sub fpu env f arg = .raise .TypeError ∧
    Float_mul fpu env f arg = .raise .TypeError ∧
    Float_div fpu env f arg = .raise .TypeError := by
  cases arg <;> first
    | (simp [Value.is_float] at harg; done)
    | (cases r <;> first
        | (simp [Value.is_float] at hr; done)
        | (simp only [Float_cmp, Float_lt, Float_lte, Float_gt, Float_gte,
            NAT_DEFINE_FLOAT_COMPARISON_METHOD, Float_add, Float_sub, Float_mul, Float_div,
            Float_arith, hco, and_self]))

/-- C13, on `1.0` against `"hello"`, which has no `coerce`: `<=>` is nil,
`>=` raises ArgumentError, `+` raises TypeError. -/
theorem Float_non_numeric_operand_samples :
    Float_cmp sample_env one (.string hello) = .ok .nil ∧
    Float_gte sample_env one (.string hello) = .raise .ArgumentError ∧
    Float_add sample_fpu sample_env one (.string hello) = .raise .TypeError := by
  have h := Float_non_numeric_operand sample_fpu sample_env one one (.string hello)
    (.string hello) rfl rfl rfl
  exact ⟨h.1, h.2.2.2.2.1, h.2.2.2.2.2.1⟩

/-- C14: `Float_div` by a divisor that compares equal to zero, `0.0`, `-0.0`
or the Integer 0 (which `coerce` turns into `0.0`), returns NaN for every
receiver, and raises nothing. -/
theorem Float_div_zero (fpu : Fpu) (env : Env) (x : Double) :
    Float_div fpu env x (.float Double.zero) = .ok (.float .nan) ∧
    Float_div fpu env x (.float negative_zero) = .ok (.float .nan) ∧
    (∀ g : Double, Double.eq g Double.zero = true →
      Float_div fpu env x (.float g) = .ok (.float .nan)) ∧
    (dispatches_coerce env → Float_div fpu env x (.integer 0) = .ok (.float .nan)) := by
  have hg : ∀ g : Double, Double.eq g Double.zero = true →
      Float_div fpu env x (.float g) = .ok (.float .nan) := by
    intro g h
    simp only [Float_div, Float_arith, h, if_true]
  refine ⟨hg _ (by decide), hg _ (by decide), hg, ?_⟩
  intro hd
  have h0 : Double.eq (Double.of_int64 0) Double.zero = true := by decide
  simp only [Float_div, Float_arith, coerce_integer env hd, h0, if_true]

/-- C14, with the built-in methods bound: `1.0 / 0` and `NaN / 0` are NaN. -/
theorem Float_div_zero_samples :
    Float_div sample_fpu builtin_env one (.integer 0) = .ok (.float .nan) ∧
    Float_div sample_fpu builtin_env .nan (.integer 0) = .ok (.float .nan) := by
  constructor
  · exact (Float_div_zero sample_fpu builtin_env one).2.2.2
      ⟨fun _ => rfl, fun _ => rfl, fun _ _ => rfl, fun _ _ => rfl⟩
  · exact (Float_div_zero sample_fpu builtin_env .nan).2.2.2
      ⟨fun _ => rfl, fun _ => rfl, fun _ _ => rfl, fun _ _ => rfl⟩

/-- C15: `coerce` returns the pair of the argument and the receiver in a
common kind: `n.coerce(f)` is `[f, Float(n)]`, `f.coerce(n)` is
`[Float(n), f]`, `n.coerce(m)` is `[m, n]` and `f.coerce(g)` is `[g, f]`; so
`1.coerce(2.0)` and `1.0.coerce(2)` are both `[2.0, 1.0]`. -/
theorem coerce_pairs (env : Env) (n m : Int) (f g : Double) :
    IntegerValue.coerce env n (.float f)
      = .ok (.array [.float f, .float (Double.of_int64 n)]) ∧
    Float_coerce env f (.integer n)
      = .ok (.array [.float (Double.of_int64 n), .float f]) ∧
    IntegerValue.coerce env n (.integer m) = .ok (.array [.integer m, .integer n]) ∧
    Float_coerce env f (.float g) = .ok (.array [.float g, .float f]) ∧
    IntegerValue.coerce env 1 (.float two) = .ok (.array [.float two, .float one]) ∧
    Float_coerce env one (.integer 2) = .ok (.array [.float two, .float one]) := by
  have h1 : Double.of_int64 1 = one := by decide
  have h2 : Double.of_int64 2 = two := by decide
  refine ⟨rfl, rfl, rfl, rfl, ?_, ?_⟩
  · simp only [IntegerValue.coerce, h1]
  · simp only [Float_coerce, h2]

/-- C16: for every String argument `IntegerValue::coerce` and `Float_coerce`
take the branch `printf("TODO\n"); abort();` and end the process: no
ArgumentError is raised, so `1.coerce("hello")` and `1.0.coerce("hello")`
raise nothing.  The default branch beside it raises ArgumentError, here on
nil. -/
theorem coerce_string (env : Env) (n : Int) (f : Double) (s : StringValue) :
    IntegerValue.coerce env n (.string s) = .crash ∧
    Float_coerce env f (.string s) = .crash ∧
    IntegerValue.coerce env n (.string s) ≠ .raise .ArgumentError ∧
    Float_coerce env f (.string s) ≠ .raise .ArgumentError ∧
    IntegerValue.coerce sample_env 1 (.string hello) = .crash ∧
    Float_coerce sample_env one (.string hello) = .crash ∧
    IntegerValue.coerce env n .nil = .raise .ArgumentError ∧
    Float_coerce env f .nil = .raise .ArgumentError := by
  refine ⟨rfl, rfl, ?_, ?_, rfl, rfl, rfl, rfl⟩ <;> intro h <;> cases h

/-- The branches of the two `coerce` methods outside Integer and Float
arguments: the default branch raises ArgumentError on every argument that is
not a String, and a String argument takes the `TODO` branch. -/
theorem coerce_unsupported (env : Env) (n : Int) (f : Double) (arg : Value) :
    (arg.is_integer = false → arg.is_float = false → arg.is_string = false →
      IntegerValue.coerce env n arg = .raise .ArgumentError ∧
      Float_coerce env f arg = .raise .ArgumentError) ∧
    (arg.is_string = true →
      IntegerValue.coerce env n arg = .crash ∧ Float_coerce env f arg = .crash) := by
  cases arg <;> simp [Value.is_integer, Value.is_float, Value.is_string,
    IntegerValue.coerce, Float_coerce]

/-- On nil and on a symbol, `coerce` raises ArgumentError. -/
theorem coerce_unsupported_samples :
    IntegerValue.coerce sample_env 1 .nil = .raise .ArgumentError ∧
    Float_coerce sample_env one (.symbol (ascii "a")) = .raise .ArgumentError := by
  constructor
  · exact ((coerce_unsupported sample_env 1 one .nil).1 rfl rfl rfl).1
  · exact ((coerce_unsupported sample_env 1 one (.symbol (ascii "a"))).1 rfl rfl rfl).2

/-- C17: `Float_eql` applies no coercion: it is false for every argument that
is not a Float, whatever the methods bound in the environment, and for a Float
argument it is true exactly when the two `double`s compare equal; so
`1.0.eql?(1)` is false. -/
theorem Float_eql_strict (env : Env) (f : Double) :
    (∀ other : Value, other.is_float = false → Float_eql env f other = .ok .false_) ∧
    (∀ g : Double, (Float_eql env f (.float g) = .ok .true_ ↔ Double.eq g f = true) ∧
      (Float_eql env f (.float g) = .ok .false_ ↔ Double.eq g f = false)) ∧
    Float_eql env one (.integer 1) = .ok .false_ := by
  refine ⟨?_, ?_, rfl⟩
  · intro other h
    cases other <;> first
      | (simp [Value.is_float] at h; done)
      | rfl
  · intro g
    cases h : Double.eq g f <;> simp [Float_eql, h]

/-- C17, on `1.0` against the Integer 1, with `coerce` bound, and against
`1.0`. -/
theorem Float_eql_strict_samples :
    Float_eql builtin_env one (.integer 1) = .ok .false_ ∧
    Float_eql builtin_env one (.float one) = .ok .true_ := by
  constructor
  · exact (Float_eql_strict builtin_env one).1 (.integer 1) rfl
  · exact ((Float_eql_strict builtin_env one).2.1 one).1.mpr (by decide)



/-! ## `Float_to_s` -/

/-- One test of the loop of `Float_to_s`. -/
theorem Float_to_s_loop_step (out : List Byte) (len : Nat) :
    Float_to_s_loop out (len + 2) =
      if out.getD (len + 1) 0 = 48 ∧ out.getD len 0 ≠ 46 then Float_to_s_loop out (len + 1)
      else len + 2 := rfl

/-- The loop of `Float_to_s` looks only at the first `len` characters. -/
theorem Float_to_s_loop_congr (out out' : List Byte) : ∀ (len : Nat),
    (∀ i, i < len → out.getD i 0 = out'.getD i 0) →
    Float_to_s_loop out len = Float_to_s_loop out' len
  | 0, _ => rfl
  | 1, _ => rfl
  | len + 2, h => by
    have ih := Float_to_s_loop_congr out out' (len + 1) (fun i hi => h i (by omega))
    simp only [Float_to_s_loop, h (len + 1) (by omega), h len (by omega), ih]

/-- The loop of `Float_to_s` never lengthens the text. -/
theorem Float_to_s_loop_le (out : List Byte) : ∀ (len : Nat), Float_to_s_loop out len ≤ len
  | 0 => by simp [Float_to_s_loop]
  | 1 => by simp [Float_to_s_loop]
  | len + 2 => by
    have ih := Float_to_s_loop_le out (len + 1)
    simp only [Float_to_s_loop]
    split <;> omega

/-- A trailing `'0'` belongs to the run that is stripped. -/
theorem rstrip_zeros_append_zero (l : List Byte) : rstrip_zeros (l ++ [48]) = rstrip_zeros l := by
  simp [rstrip_zeros, List.dropWhile_cons]

/-- A text that ends in another character than `'0'` has no run to strip. -/
theorem rstrip_zeros_append_other (l : List Byte) (x : Byte) (hx : x ≠ 48) :
    rstrip_zeros (l ++ [x]) = l ++ [x] := by
  simp [rstrip_zeros, List.dropWhile_cons, hx]

/-- The stripped run is made of `'0'` characters only, and it is maximal. -/
theorem rstrip_zeros_spec (l : List Byte) :
    (∃ k, l = rstrip_zeros l ++ List.replicate k 48) ∧ (rstrip_zeros l).getLast? ≠ some 48 := by
  induction l using List.reverseRecOn with
  | nil => exact ⟨⟨0, by simp [rstrip_zeros]⟩, by simp [rstrip_zeros]⟩
  | append_singleton l x ih =>
    by_cases hx : x = 48
    · subst hx
      rw [rstrip_zeros_append_zero]
      obtain ⟨⟨k, hk⟩, hlast⟩ := ih
      refine ⟨⟨k + 1, ?_⟩, hlast⟩
      rw [List.replicate_succ', ← List.append_assoc, ← hk]
    · rw [rstrip_zeros_append_other l x hx]
      refine ⟨⟨0, by simp⟩, ?_⟩
      simp [hx]

/-- On a text `pre . d1 rest` whose fraction `d1 rest` is made of digits, the
loop of `Float_to_s` stops at `pre . d1` followed by `rest` without its
trailing zeros. -/
theorem Float_to_s_loop_fraction (pre : List Byte) (d1 : Byte) (rest : List Byte)
    (hd1 : 48 ≤ d1 ∧ d1 ≤ 57) (hrest : ∀ b ∈ rest, 48 ≤ b ∧ b ≤ 57) :
    (pre ++ 46 :: d1 :: rest).take
        (Float_to_s_loop (pre ++ 46 :: d1 :: rest) (pre ++ 46 :: d1 :: rest).length)
      = pre ++ 46 :: d1 :: rstrip_zeros rest := by
  induction rest using List.reverseRecOn with
  | nil =>
    have hlen : (pre ++ [46, d1]).length = pre.length + 2 := by simp
    have h1 : (pre ++ [46, d1]).getD pre.length 0 = 46 := by
      rw [List.getD_append_right _ _ _ _ (le_refl _), Nat.sub_self]
      rfl
    rw [hlen, Float_to_s_loop_step, if_neg (fun h => h.2 h1), ← hlen, List.take_length]
    simp [rstrip_zeros]
  | append_singleton rest' x ih =>
    have hrest' : ∀ b ∈ rest', 48 ≤ b ∧ b ≤ 57 := fun b hb => hrest b (by simp [hb])
    have ih' := ih hrest'
    generalize hA : pre ++ 46 :: d1 :: rest' = A at ih'
    have hout : pre ++ 46 :: d1 :: (rest' ++ [x]) = A ++ [x] := by simp [← hA]
    have hlenA : A.length = pre.length + rest'.length + 1 + 1 := by
      rw [← hA]
      simp only [List.length_append, List.length_cons]
      omega
    have hlast : (A ++ [x]).getD (pre.length + rest'.length + 1 + 1) 0 = x := by
      rw [List.getD_append_right _ _ _ _ (by omega), hlenA, Nat.sub_self]
      rfl
    have hprev : (A ++ [x]).getD (pre.length + rest'.length + 1) 0 ≠ 46 := by
      have h1 : (A ++ [x]).getD (pre.length + rest'.length + 1) 0
          = A.getD (pre.length + rest'.length + 1) 0 :=
        List.getD_append _ _ _ _ (by omega)
      have h2 : A.getD (pre.length + rest'.length + 1) 0
          = (46 :: d1 :: rest').getD (rest'.length + 1) 0 := by
        rw [← hA, List.getD_append_right _ _ _ _ (by omega)]
        congr 1
        omega
      have hlt : rest'.length < (d1 :: rest').length := by simp
      have h3 : (46 :: d1 :: rest').getD (rest'.length + 1) 0 = (d1 :: rest')[rest'.length] := by
        rw [List.getD_cons_succ, List.getD_eq_getElem _ _ hlt]
      have hmem : (d1 :: rest')[rest'.length] ∈ d1 :: rest' := List.getElem_mem _
      rw [h1, h2, h3]
      intro h46
      rw [h46] at hmem
      rcases List.mem_cons.mp hmem with h | h
      · rw [← h] at hd1
        exact absurd hd1.1 (by decide)
      · exact absurd (hrest' 46 h).1 (by decide)
    have hlen : (A ++ [x]).length = (pre.length + rest'.length + 1) + 2 := by
      simp only [List.length_append, List.length_cons, List.length_nil, hlenA]
    rw [hout, hlen]
    by_cases hx0 : x = 48
    · subst hx0
      rw [rstrip_zeros_append_zero]
      rw [Float_to_s_loop_step, if_pos ⟨hlast, hprev⟩]
      have hcongr : Float_to_s_loop (A ++ [48]) (pre.length + rest'.length + 1 + 1)
          = Float_to_s_loop A A.length := by
        rw [hlenA]
        exact Float_to_s_loop_congr _ _ _
          (fun i hi => List.getD_append _ _ _ _ (by omega))
      rw [hcongr, List.take_append_of_le_length (Float_to_s_loop_le _ _)]
      exact ih'
    · rw [rstrip_zeros_append_other rest' x hx0]
      rw [Float_to_s_loop_step, hlast, if_neg (fun h => hx0 h.1), ← hlen, List.take_length, ← hA]
      simp


/-- The trimming loop on a whole text: on every text `pre . d1 rest` with a
fraction `d1 rest` of digits (the texts of `"%.15f"` have 15 of them) the loop
of `Float_to_s` removes exactly the maximal run of trailing `'0'` characters
of `rest`: the result keeps the `'.'` and the digit `d1` after it, and ends in
`'0'` only when that `'0'` is `d1` itself; `Float_to_s` returns that result
when the text has at most 99 characters, the capacity of `out[100]`. -/
theorem Float_to_s_trim (pre : List Byte) (d1 : Byte) (rest : List Byte)
    (hd1 : 48 ≤ d1 ∧ d1 ≤ 57) (hrest : ∀ b ∈ rest, 48 ≤ b ∧ b ≤ 57) :
    (pre ++ 46 :: d1 :: rest).take
        (Float_to_s_loop (pre ++ 46 :: d1 :: rest) (pre ++ 46 :: d1 :: rest).length)
      = pre ++ 46 :: d1 :: rstrip_zeros rest ∧
    (∃ k, rest = rstrip_zeros rest ++ List.replicate k 48) ∧
    (rstrip_zeros rest).getLast? ≠ some 48 ∧
    46 ∈ pre ++ 46 :: d1 :: rstrip_zeros rest ∧
    ((pre ++ 46 :: d1 :: rstrip_zeros rest).getLast? = some 48 →
      d1 = 48 ∧ rstrip_zeros rest = []) ∧
    (∀ (format_15f : Double → List Byte) (env : Env) (self : Double),
      self.is_nan = false → self.is_positive_infinity = false →
      self.is_negative_infinity = false →
      format_15f self = pre ++ 46 :: d1 :: rest → (format_15f self).length ≤ 99 →
      Float_to_s format_15f env self =
        .ok (.string (StringValue.new env (pre ++ 46 :: d1 :: rstrip_zeros rest)))) := by
  have hloop := Float_to_s_loop_fraction pre d1 rest hd1 hrest
  obtain ⟨hk, hlast⟩ := rstrip_zeros_spec rest
  refine ⟨hloop, hk, hlast, by simp, ?_, ?_⟩
  · intro h
    cases hr : rstrip_zeros rest with
    | nil =>
      rw [hr] at h
      simp only [List.getLast?_append, List.getLast?_cons_cons, List.getLast?_singleton,
        Option.or_some] at h
      simp only [and_true]
      simpa using h
    | cons y ys =>
      exfalso
      rw [hr] at h hlast
      apply hlast
      have h2 : (pre ++ 46 :: d1 :: y :: ys).getLast? = (y :: ys).getLast? := by
        have : pre ++ 46 :: d1 :: y :: ys = (pre ++ [46, d1]) ++ (y :: ys) := by simp
        rw [this, List.getLast?_append]
        cases hl : (y :: ys).getLast? with
        | none => simp at hl
        | some z => rfl
      rw [← h2]
      exact h
  · intro format_15f env self h1 h2 h3 hfmt hlen
    have htake : (format_15f self).take 99 = pre ++ 46 :: d1 :: rest := by
      rw [List.take_of_length_le hlen, hfmt]
    simp only [Float_to_s, h1, h2, h3, Bool.false_eq_true, if_false, htake, hloop]

/-- The texts of `1.0` and `1.25` give `"1.0"` and `"1.25"`. -/
theorem Float_to_s_trim_samples :
    Float_to_s sample_format_15f sample_env one = .ok (.string ⟨ascii "1.0", .UTF_8⟩) ∧
    Float_to_s sample_format_15f sample_env five_quarters
      = .ok (.string ⟨ascii "1.25", .UTF_8⟩) := by
  constructor
  · rw [(Float_to_s_trim (ascii "1") 48 (ascii "00000000000000") (by decide)
      (by decide)).2.2.2.2.2 sample_format_15f sample_env one rfl rfl rfl (by decide) (by decide)]
    rfl
  · have hfmt : sample_format_15f five_quarters = ascii "1.250000000000000" := by
      simp only [sample_format_15f, five_quarters]
      norm_num
    rw [(Float_to_s_trim (ascii "1") 50 (ascii "50000000000000") (by decide)
      (by decide)).2.2.2.2.2 sample_format_15f sample_env five_quarters rfl rfl rfl
      (by rw [hfmt]; decide) (by rw [hfmt]; decide)]
    rfl

/-- C18: the text of `1e100` has the shape of the claim (101 integer digits,
the `'.'`, 15 fractional digits: 117 characters), but `out[100]` keeps its
first 99 characters only, all of them integer digits and the last one not
`'0'`: the loop removes nothing and `Float_to_s` returns these 99 digits, a
text without `'.'` and without fractional digit, where trimming the whole text
gives the 101 digits followed by `".0"`. -/
theorem Float_to_s_buffer :
    ten_to_100.is_nan = false ∧ ten_to_100.is_positive_infinity = false ∧
    ten_to_100.is_negative_infinity = false ∧
    wide_format_15f ten_to_100 =
      ascii "10000000000000000159028911097599180468360808563945281389781327557747838772170381060813469985856815104"
        ++ 46 :: 48 :: ascii "00000000000000" ∧
    (∀ b ∈ ascii "10000000000000000159028911097599180468360808563945281389781327557747838772170381060813469985856815104",
      48 ≤ b ∧ b ≤ 57) ∧
    (∀ b ∈ ascii "00000000000000", 48 ≤ b ∧ b ≤ 57) ∧
    (wide_format_15f ten_to_100).length = 117 ∧
    Float_to_s wide_format_15f sample_env ten_to_100 = .ok (.string
      ⟨ascii "100000000000000001590289110975991804683608085639452813897813275577478387721703810608134699858568151",
        .UTF_8⟩) ∧
    46 ∉ ascii "100000000000000001590289110975991804683608085639452813897813275577478387721703810608134699858568151" ∧
    ascii "100000000000000001590289110975991804683608085639452813897813275577478387721703810608134699858568151"
      ≠ ascii "10000000000000000159028911097599180468360808563945281389781327557747838772170381060813469985856815104"
        ++ 46 :: 48 :: rstrip_zeros (ascii "00000000000000") := by
  have hfmt : wide_format_15f ten_to_100 =
      ascii "10000000000000000159028911097599180468360808563945281389781327557747838772170381060813469985856815104"
        ++ 46 :: 48 :: ascii "00000000000000" := by
    rw [wide_format_15f, if_pos rfl]
    rfl
  refine ⟨rfl, rfl, rfl, hfmt, by decide, by decide, ?_, ?_, by decide, by decide⟩
  · rw [hfmt]
    rfl
  · simp only [Float_to_s, hfmt]
    rfl


/-! ## `MatchData` -/

/-- Within the snapshot, the substring construction yields the bytes between
the begin and the end of the region. -/
theorem MatchData_substring_eq (env : Env) (m : MatchDataValue) (i : Nat)
    (h : 0 ≤ m.region.beg.getD i 0 ∧ m.region.beg.getD i 0 ≤ m.region.end_.getD i 0 ∧
      m.region.end_.getD i 0 ≤ (m.str.length : Int)) :
    MatchData_substring env m i =
      .ok (.string (StringValue.new env
        (bytes_between m.str (m.region.beg.getD i 0) (m.region.end_.getD i 0)))) := by
  simp only [MatchData_substring, if_pos h, bytes_between, List.drop_take]
  have : (m.region.end_.getD i 0 - m.region.beg.getD i 0).toNat
      = (m.region.end_.getD i 0).toNat - (m.region.beg.getD i 0).toNat := by omega
  rw [this]

/-- C19: for a match result with `r ≥ 1` regions, each within the snapshot
(`0 ≤ begin ≤ end ≤ length`), `MatchData_ref` returns the snapshot bytes in
`[begin_0, end_0)` for index 0, those in `[begin_i, end_i)` for `1 ≤ i < r`,
and nil for every index `i ≥ r`. -/
theorem MatchData_ref_groups (env : Env) (m : MatchDataValue)
    (hr : 1 ≤ m.region.num_regs)
    (hb : ∀ i, i < m.region.num_regs →
      0 ≤ m.region.beg.getD i 0 ∧ m.region.beg.getD i 0 ≤ m.region.end_.getD i 0 ∧
        m.region.end_.getD i 0 ≤ (m.str.length : Int)) :
    MatchData_ref env m (.integer 0) =
      .ok (.string (StringValue.new env
        (bytes_between m.str (m.region.beg.getD 0 0) (m.region.end_.getD 0 0)))) ∧
    (∀ i : Nat, 1 ≤ i → i < m.region.num_regs →
      MatchData_ref env m (.integer i) =
        .ok (.string (StringValue.new env
          (bytes_between m.str (m.region.beg.getD i 0) (m.region.end_.getD i 0))))) ∧
    (∀ i : Int, (m.region.num_regs : Int) ≤ i → MatchData_ref env m (.integer i) = .ok .nil) := by
  refine ⟨?_, ?_, ?_⟩
  · have h0 : m.region.num_regs > 0 := by omega
    simp only [MatchData_ref, MatchData_to_s, h0, if_true]
    simp only [lt_self_iff_false, if_false, if_true]
    exact MatchData_substring_eq env m 0 (hb 0 (by omega))
  · intro i h1 h2
    have hn : ¬ ((i : Int) < 0) := by omega
    have hz : ¬ ((i : Int) = 0) := by omega
    have hlt : ¬ ((i : Int) ≥ (m.region.num_regs : Int)) := by omega
    simp only [MatchData_ref, if_neg hn, if_neg hz, if_neg hlt, Int.toNat_ofNat]
    exact MatchData_substring_eq env m i (hb i h2)
  · intro i hi
    have hn : ¬ (i < 0) := by omega
    have hz : ¬ (i = 0) := by omega
    simp only [MatchData_ref, if_neg hn, if_neg hz, if_pos (ge_iff_le.mpr hi)]

/-- C19, on the match of `"ell"` in `"hello"` with the group `"l"`: index 0
is `"ell"`, index 1 is `"l"`, index 2 is nil. -/
theorem MatchData_ref_groups_samples :
    MatchData_ref sample_env sample_match (.integer 0) = .ok (.string ⟨ascii "ell", .UTF_8⟩) ∧
    MatchData_ref sample_env sample_match (.integer 1) = .ok (.string ⟨ascii "l", .UTF_8⟩) ∧
    MatchData_ref sample_env sample_match (.integer 2) = .ok .nil := by
  have h := MatchData_ref_groups sample_env sample_match (by decide) (by decide)
  refine ⟨?_, ?_, ?_⟩
  · rw [h.1]
    rfl
  · exact (h.2.1 1 (by decide) (by decide)).trans rfl
  · exact h.2.2 2 (by decide)

/-- C20: `MatchData_ref` with a negative index fails the assertion
`index >= 0` and ends the process, whatever the regions: it returns neither a
substring nor nil. -/
theorem MatchData_ref_negative (env : Env) (m : MatchDataValue) (i : Int) (h : i < 0) :
    MatchData_ref env m (.integer i) = .crash ∧
    ∀ v : Value, MatchData_ref env m (.integer i) ≠ .ok v := by
  have hc : MatchData_ref env m (.integer i) = .crash := by
    simp only [MatchData_ref, if_pos h]
  refine ⟨hc, ?_⟩
  intro v hv
  rw [hc] at hv
  cases hv

/-- C20, on index `-1` of the sample match. -/
theorem MatchData_ref_negative_sample :
    MatchData_ref sample_env sample_match (.integer (-1)) = .crash :=
  (MatchData_ref_negative sample_env sample_match (-1) (by decide)).1

/-! ## Match results and later mutation of the subject -/

/-- Writing one buffer leaves every other buffer as it was. -/
theorem Heap.read_write_ne (heap : Heap) (addr other : Nat) (bytes : List Byte)
    (h : other ≠ addr) : (heap.write addr bytes).read other = heap.read other := by
  simp only [Heap.read, Heap.write, List.getD_eq_getElem?_getD]
  rw [List.getElem?_set_ne (Ne.symm h)]

/-- A mutation of a string writes to the buffer of that string only, and the
string keeps its buffer. -/
theorem StringObject.mutate_frame (heap : Heap) (s : StringObject) (mutation : Mutation)
    (other : Nat) (h : other ≠ s.c_str) :
    (s.mutate heap mutation).1.read other = heap.read other ∧
    (s.mutate heap mutation).2.c_str = s.c_str := by
  cases mutation with
  | append bytes => exact ⟨Heap.read_write_ne _ _ _ _ h, rfl⟩
  | truncate n => exact ⟨Heap.read_write_ne _ _ _ _ h, rfl⟩
  | set_encoding e => exact ⟨rfl, rfl⟩

/-- A sequence of mutations of a string leaves every other buffer as it was. -/
theorem StringObject.mutate_all_frame (other : Nat) : ∀ (muts : List Mutation) (heap : Heap)
    (s : StringObject), other ≠ s.c_str →
    (s.mutate_all heap muts).1.read other = heap.read other := by
  intro muts
  induction muts with
  | nil => intro heap s _; rfl
  | cons mutation rest ih =>
    intro heap s h
    obtain ⟨h1, h2⟩ := StringObject.mutate_frame heap s mutation other h
    rw [StringObject.mutate_all, ih _ _ (by rw [h2]; exact h), h1]

/-- The buffer that `strdup` allocates holds the bytes of the copied one. -/
theorem Heap.strdup_read (heap : Heap) (addr : Nat) :
    (heap.strdup addr).1.read (heap.strdup addr).2 = heap.read addr := by
  simp only [Heap.strdup, Heap.read]
  rw [List.getD_append_right _ _ _ _ (le_refl _)]
  simp

/-- C21: a match result built from a live string `string` holds the bytes that
the string had at construction, in a buffer of its own, and every later
sequence of mutations of the string (append, truncate, re-tag) leaves the
match result as it was: `MatchData_to_s` and `MatchData_ref` at every argument
return after the mutations what they returned before. -/
theorem MatchData_snapshot_independent (env : Env) (heap : Heap) (region : OnigRegion)
    (string : StringObject) (muts : List Mutation)
    (hlive : string.c_str < heap.cells.length) :
    (MatchDataObject.new heap region string).2.m_str ≠ string.c_str ∧
    (MatchDataObject.new heap region string).2.value (MatchDataObject.new heap region string).1
      = ⟨region, heap.read string.c_str⟩ ∧
    (MatchDataObject.new heap region string).2.value
        (string.mutate_all (MatchDataObject.new heap region string).1 muts).1
      = (MatchDataObject.new heap region string).2.value
          (MatchDataObject.new heap region string).1 ∧
    MatchData_to_s env ((MatchDataObject.new heap region string).2.value
        (string.mutate_all (MatchDataObject.new heap region string).1 muts).1)
      = MatchData_to_s env ((MatchDataObject.new heap region string).2.value
          (MatchDataObject.new heap region string).1) ∧
    ∀ arg : Value,
      MatchData_ref env ((MatchDataObject.new heap region string).2.value
          (string.mutate_all (MatchDataObject.new heap region string).1 muts).1) arg
        = MatchData_ref env ((MatchDataObject.new heap region string).2.value
            (MatchDataObject.new heap region string).1) arg := by
  have hne : (MatchDataObject.new heap region string).2.m_str ≠ string.c_str := by
    simp only [MatchDataObject.new, Heap.strdup]
    omega
  have hsnap : (MatchDataObject.new heap region string).2.value
      (MatchDataObject.new heap region string).1 = ⟨region, heap.read string.c_str⟩ := by
    simp only [MatchDataObject.value, MatchDataObject.new]
    rw [Heap.strdup_read]
  have hkeep : (MatchDataObject.new heap region string).2.value
        (string.mutate_all (MatchDataObject.new heap region string).1 muts).1
      = (MatchDataObject.new heap region string).2.value
          (MatchDataObject.new heap region string).1 := by
    simp only [MatchDataObject.value]
    rw [StringObject.mutate_all_frame _ muts _ string hne]
  refine ⟨hne, hsnap, hkeep, ?_, ?_⟩
  · rw [hkeep]
  · intro arg
    rw [hkeep]

/-- C21 on `sample_heap`: the match of `"hello"` with groups `"ell"` and `"l"`
returns group 1 after the string is appended to, truncated and re-tagged as
it did before. -/
theorem MatchData_snapshot_independent_sample :
    MatchData_ref sample_env ((MatchDataObject.new sample_heap ⟨[1, 2], [4, 3]⟩ hello_object).2.value
        (hello_object.mutate_all (MatchDataObject.new sample_heap ⟨[1, 2], [4, 3]⟩ hello_object).1
          [.append (ascii " world"), .truncate 2, .set_encoding .ASCII_8BIT]).1) (.integer 1)
      = MatchData_ref sample_env ((MatchDataObject.new sample_heap ⟨[1, 2], [4, 3]⟩ hello_object).2.value
          (MatchDataObject.new sample_heap ⟨[1, 2], [4, 3]⟩ hello_object).1) (.integer 1) :=
  (MatchData_snapshot_independent sample_env sample_heap ⟨[1, 2], [4, 3]⟩ hello_object
    [.append (ascii " world"), .truncate 2, .set_encoding .ASCII_8BIT] (by decide)).2.2.2.2
    (.integer 1)

/-! ## `String_ord` -/

/-- XOR with the marker of a continuation byte removes the marker. -/
theorem xor_continuation : ∀ x, x < 64 → (0x80 + x) ^^^ 0x80 = x := by decide

/-- XOR with the marker of a 2-byte leading byte removes the marker. -/
theorem xor_lead2 : ∀ x, x < 32 → (0xC0 + x) ^^^ 0xC0 = x := by decide

/-- XOR with the marker of a 3-byte leading byte removes the marker. -/
theorem xor_lead3 : ∀ x, x < 16 → (0xE0 + x) ^^^ 0xE0 = x := by decide

/-- XOR with the marker of a 4-byte leading byte removes the marker. -/
theorem xor_lead4 : ∀ x, x < 8 → (0xF0 + x) ^^^ 0xF0 = x := by decide

/-- The payload mask of a continuation byte keeps what follows the marker. -/
theorem and_continuation : ∀ x, x < 64 → (0x80 + x) &&& 0x3F = x := by decide

/-- The payload mask of a 2-byte leading byte keeps what follows the marker. -/
theorem and_lead2 : ∀ x, x < 32 → (0xC0 + x) &&& 0x1F = x := by decide

/-- The payload mask of a 3-byte leading byte keeps what follows the marker. -/
theorem and_lead3 : ∀ x, x < 16 → (0xE0 + x) &&& 0x0F = x := by decide

/-- The payload mask of a 4-byte leading byte keeps what follows the marker. -/
theorem and_lead4 : ∀ x, x < 8 → (0xF0 + x) &&& 0x07 = x := by decide

/-- Adding a value below `2^i` to a multiple of `2^i` is OR-ing it. -/
theorem shift_add_eq_or (a b i : Nat) (h : b < 2 ^ i) : (a <<< i) + b = (a <<< i) ||| b := by
  rw [Nat.shiftLeft_eq, Nat.mul_comm]
  exact Nat.mul_add_lt_is_or h a

/-- `String_ord` of a UTF-8 string that begins with the encoding of the code
point `c` is `c`. -/
theorem String_ord_utf8_encode (c : Nat) (hc : c < 0x110000) (rest : List Byte) :
    String_ord ⟨utf8_encode c ++ rest, .UTF_8⟩ = .ok (.integer c) := by
  by_cases h1 : c < 0x80
  · have hw : StringValue.char_width .UTF_8 c = 1 := by
      have a1 : ¬ c / 32 = 6 := by omega
      have a2 : ¬ c / 16 = 14 := by omega
      have a3 : ¬ c / 8 = 30 := by omega
      simp only [StringValue.char_width, if_neg a1, if_neg a2, if_neg a3]
    simp only [utf8_encode, if_pos h1, String_ord, StringValue.chars, List.cons_append,
      List.nil_append, List.length_cons, StringValue.chars_loop, hw, Nat.sub_self,
      List.take_zero, List.map_cons]
  · by_cases h2 : c < 0x800
    · have hw : StringValue.char_width .UTF_8 (0xC0 + c / 64) = 2 := by
        have a1 : (0xC0 + c / 64) / 32 = 6 := by omega
        simp only [StringValue.char_width, if_pos a1]
      have hx0 := xor_lead2 (c / 64) (by omega)
      have hx1 := xor_continuation (c % 64) (by omega)
      simp only [utf8_encode, if_neg h1, if_pos h2, String_ord, StringValue.chars,
        List.cons_append, List.nil_append, List.length_cons, StringValue.chars_loop, hw,
        List.map_cons, Nat.add_one_sub_one, List.take_succ_cons, List.take_zero, hx0, hx1,
        Nat.shiftLeft_eq]
      congr 2
      omega
    · by_cases h3 : c < 0x10000
      · have hw : StringValue.char_width .UTF_8 (0xE0 + c / 4096) = 3 := by
          have a1 : ¬ (0xE0 + c / 4096) / 32 = 6 := by omega
          have a2 : (0xE0 + c / 4096) / 16 = 14 := by omega
          simp only [StringValue.char_width, if_neg a1, if_pos a2]
        have hx0 := xor_lead3 (c / 4096) (by omega)
        have hx1 := xor_continuation (c / 64 % 64) (by omega)
        have hx2 := xor_continuation (c % 64) (by omega)
        simp only [utf8_encode, if_neg h1, if_neg h2, if_pos h3, String_ord, StringValue.chars,
          List.cons_append, List.nil_append, List.length_cons, StringValue.chars_loop, hw,
          List.map_cons, Nat.add_one_sub_one, List.take_succ_cons, List.take_zero, hx0, hx1,
          hx2, Nat.shiftLeft_eq]
        congr 2
        omega
      · have hw : StringValue.char_width .UTF_8 (0xF0 + c / 262144) = 4 := by
          have a1 : ¬ (0xF0 + c / 262144) / 32 = 6 := by omega
          have a2 : ¬ (0xF0 + c / 262144) / 16 = 14 := by omega
          have a3 : (0xF0 + c / 262144) / 8 = 30 := by omega
          simp only [StringValue.char_width, if_neg a1, if_neg a2, if_pos a3]
        have hx0 := xor_lead4 (c / 262144) (by omega)
        have hx1 := xor_continuation (c / 4096 % 64) (by omega)
        have hx2 := xor_continuation (c / 64 % 64) (by omega)
        have hx3 := xor_continuation (c % 64) (by omega)
        simp only [utf8_encode, if_neg h1, if_neg h2, if_neg h3, String_ord, StringValue.chars,
          List.cons_append, List.nil_append, List.length_cons, StringValue.chars_loop, hw,
          List.map_cons, Nat.add_one_sub_one, List.take_succ_cons, List.take_zero, hx0, hx1,
          hx2, hx3, Nat.shiftLeft_eq]
        congr 2
        omega

/-- On a well-formed 2-byte sequence the XOR-and-add formula of `String_ord`
is the mask-shift-or reconstruction. -/
theorem xor_add_eq_mask_or_2 (b0 b1 : Nat) (h0 : 0xC0 ≤ b0 ∧ b0 < 0xE0)
    (h1 : 0x80 ≤ b1 ∧ b1 < 0xC0) :
    ((b0 ^^^ 0xC0) <<< 6) + ((b1 ^^^ 0x80) <<< 0) = ((b0 &&& 0x1F) <<< 6) ||| (b1 &&& 0x3F) := by
  obtain ⟨x, rfl⟩ : ∃ x, b0 = 0xC0 + x := ⟨b0 - 0xC0, by omega⟩
  obtain ⟨y, rfl⟩ : ∃ y, b1 = 0x80 + y := ⟨b1 - 0x80, by omega⟩
  have hx : x < 32 := by omega
  have hy : y < 64 := by omega
  rw [xor_lead2 x hx, xor_continuation y hy, and_lead2 x hx, and_continuation y hy,
    Nat.shiftLeft_zero]
  exact shift_add_eq_or x y 6 hy

/-- On a well-formed 3-byte sequence the XOR-and-add formula of `String_ord`
is the mask-shift-or reconstruction. -/
theorem xor_add_eq_mask_or_3 (b0 b1 b2 : Nat) (h0 : 0xE0 ≤ b0 ∧ b0 < 0xF0)
    (h1 : 0x80 ≤ b1 ∧ b1 < 0xC0) (h2 : 0x80 ≤ b2 ∧ b2 < 0xC0) :
    ((b0 ^^^ 0xE0) <<< 12) + ((b1 ^^^ 0x80) <<< 6) + ((b2 ^^^ 0x80) <<< 0)
      = ((b0 &&& 0x0F) <<< 12) ||| ((b1 &&& 0x3F) <<< 6) ||| (b2 &&& 0x3F) := by
  obtain ⟨x, rfl⟩ : ∃ x, b0 = 0xE0 + x := ⟨b0 - 0xE0, by omega⟩
  obtain ⟨y, rfl⟩ : ∃ y, b1 = 0x80 + y := ⟨b1 - 0x80, by omega⟩
  obtain ⟨z, rfl⟩ : ∃ z, b2 = 0x80 + z := ⟨b2 - 0x80, by omega⟩
  have hx : x < 16 := by omega
  have hy : y < 64 := by omega
  have hz : z < 64 := by omega
  rw [xor_lead3 x hx, xor_continuation y hy, xor_continuation z hz, and_lead3 x hx,
    and_continuation y hy, and_continuation z hz, Nat.shiftLeft_zero]
  have hy6 : y <<< 6 < 2 ^ 12 := by
    rw [Nat.shiftLeft_eq]
    omega
  have e1 : (x <<< 12) + (y <<< 6) = (x <<< 12) ||| (y <<< 6) := shift_add_eq_or x _ 12 hy6
  have e2 : (x <<< 12) + (y <<< 6) = (x * 64 + y) <<< 6 := by
    simp only [Nat.shiftLeft_eq]
    omega
  rw [← e1, e2]
  exact shift_add_eq_or _ z 6 hz

/-- On a well-formed 4-byte sequence the XOR-and-add formula of `String_ord`
is the mask-shift-or reconstruction. -/
theorem xor_add_eq_mask_or_4 (b0 b1 b2 b3 : Nat) (h0 : 0xF0 ≤ b0 ∧ b0 < 0xF8)
    (h1 : 0x80 ≤ b1 ∧ b1 < 0xC0) (h2 : 0x80 ≤ b2 ∧ b2 < 0xC0) (h3 : 0x80 ≤ b3 ∧ b3 < 0xC0) :
    ((b0 ^^^ 0xF0) <<< 18) + ((b1 ^^^ 0x80) <<< 12) + ((b2 ^^^ 0x80) <<< 6)
        + ((b3 ^^^ 0x80) <<< 0)
      = ((b0 &&& 0x07) <<< 18) ||| ((b1 &&& 0x3F) <<< 12) ||| ((b2 &&& 0x3F) <<< 6)
        ||| (b3 &&& 0x3F) := by
  obtain ⟨x, rfl⟩ : ∃ x, b0 = 0xF0 + x := ⟨b0 - 0xF0, by omega⟩
  obtain ⟨y, rfl⟩ : ∃ y, b1 = 0x80 + y := ⟨b1 - 0x80, by omega⟩
  obtain ⟨z, rfl⟩ : ∃ z, b2 = 0x80 + z := ⟨b2 - 0x80, by omega⟩
  obtain ⟨w, rfl⟩ : ∃ w, b3 = 0x80 + w := ⟨b3 - 0x80, by omega⟩
  have hx : x < 8 := by omega
  have hy : y < 64 := by omega
  have hz : z < 64 := by omega
  have hw : w < 64 := by omega
  rw [xor_lead4 x hx, xor_continuation y hy, xor_continuation z hz, xor_continuation w hw,
    and_lead4 x hx, and_continuation y hy, and_continuation z hz, and_continuation w hw,
    Nat.shiftLeft_zero]
  have hy12 : y <<< 12 < 2 ^ 18 := by
    rw [Nat.shiftLeft_eq]
    omega
  have hz6 : z <<< 6 < 2 ^ 12 := by
    rw [Nat.shiftLeft_eq]
    omega
  have e1 : (x <<< 18) + (y <<< 12) = (x <<< 18) ||| (y <<< 12) := shift_add_eq_or x _ 18 hy12
  have e2 : (x <<< 18) + (y <<< 12) = (x * 64 + y) <<< 12 := by
    simp only [Nat.shiftLeft_eq]
    omega
  have e3 : ((x * 64 + y) <<< 12) + (z <<< 6) = ((x * 64 + y) <<< 12) ||| (z <<< 6) :=
    shift_add_eq_or _ _ 12 hz6
  have e4 : ((x * 64 + y) <<< 12) + (z <<< 6) = ((x * 64 + y) * 64 + z) <<< 6 := by
    simp only [Nat.shiftLeft_eq]
    omega
  rw [← e1, e2, ← e3, e4]
  exact shift_add_eq_or _ w 6 hw

/-- C22: `String_ord` of a UTF-8 string whose first character is the
well-formed encoding of the code point `c` returns `c`; on well-formed
sequences of 2, 3 and 4 bytes the XOR-and-add formula of the code equals the
mask-shift-or reconstruction; and for a first character of one byte it returns
the byte. -/
theorem String_ord_code_point :
    (∀ (c : Nat) (rest : List Byte), c < 0x110000 →
      String_ord ⟨utf8_encode c ++ rest, .UTF_8⟩ = .ok (.integer c)) ∧
    (∀ b0 b1 : Nat, 0xC0 ≤ b0 ∧ b0 < 0xE0 → 0x80 ≤ b1 ∧ b1 < 0xC0 →
      ((b0 ^^^ 0xC0) <<< 6) + ((b1 ^^^ 0x80) <<< 0)
        = ((b0 &&& 0x1F) <<< 6) ||| (b1 &&& 0x3F)) ∧
    (∀ b0 b1 b2 : Nat, 0xE0 ≤ b0 ∧ b0 < 0xF0 → 0x80 ≤ b1 ∧ b1 < 0xC0 →
      0x80 ≤ b2 ∧ b2 < 0xC0 →
      ((b0 ^^^ 0xE0) <<< 12) + ((b1 ^^^ 0x80) <<< 6) + ((b2 ^^^ 0x80) <<< 0)
        = ((b0 &&& 0x0F) <<< 12) ||| ((b1 &&& 0x3F) <<< 6) ||| (b2 &&& 0x3F)) ∧
    (∀ b0 b1 b2 b3 : Nat, 0xF0 ≤ b0 ∧ b0 < 0xF8 → 0x80 ≤ b1 ∧ b1 < 0xC0 →
      0x80 ≤ b2 ∧ b2 < 0xC0 → 0x80 ≤ b3 ∧ b3 < 0xC0 →
      ((b0 ^^^ 0xF0) <<< 18) + ((b1 ^^^ 0x80) <<< 12) + ((b2 ^^^ 0x80) <<< 6)
          + ((b3 ^^^ 0x80) <<< 0)
        = ((b0 &&& 0x07) <<< 18) ||| ((b1 &&& 0x3F) <<< 12) ||| ((b2 &&& 0x3F) <<< 6)
          ||| (b3 &&& 0x3F)) ∧
    (∀ (enc : Encoding) (b : Byte) (rest : List Byte), StringValue.char_width enc b = 1 →
      String_ord ⟨b :: rest, enc⟩ = .ok (.integer b)) := by
  refine ⟨fun c rest hc => String_ord_utf8_encode c hc rest, xor_add_eq_mask_or_2,
    xor_add_eq_mask_or_3, xor_add_eq_mask_or_4, ?_⟩
  intro enc b rest hw
  simp only [String_ord, StringValue.chars, List.length_cons, StringValue.chars_loop, hw,
    Nat.sub_self, List.take_zero, List.map_cons]

/-- C22, on `"é"` (U+00E9, two bytes), on the euro sign (U+20AC, three
bytes), on U+1F600 (four bytes) and on `"hello"`. -/
theorem String_ord_code_point_samples :
    String_ord e_acute = .ok (.integer 0xE9) ∧
    String_ord ⟨[0xE2, 0x82, 0xAC], .UTF_8⟩ = .ok (.integer 0x20AC) ∧
    String_ord ⟨[0xF0, 0x9F, 0x98, 0x80], .UTF_8⟩ = .ok (.integer 0x1F600) ∧
    String_ord hello = .ok (.integer 104) := by
  refine ⟨?_, ?_, ?_, ?_⟩
  · exact String_ord_code_point.1 0xE9 [] (by decide)
  · exact String_ord_code_point.1 0x20AC [] (by decide)
  · exact String_ord_code_point.1 0x1F600 [] (by decide)
  · exact String_ord_code_point.2.2.2.2 .UTF_8 104 (ascii "ello") (by decide)

/-! ## `String_split` and join -/

/-- A needle found at the start of a text is found at the start of every
extension of the text. -/
theorem starts_with_append : ∀ (t d y : List Byte), starts_with t d = true →
    starts_with (t ++ y) d = true
  | _, [], _, _ => by cases ‹List Byte› <;> simp [starts_with]
  | [], _ :: _, _, h => by simp [starts_with] at h
  | t :: ts, n :: ns, y, h => by
    simp only [starts_with, Bool.and_eq_true] at h
    simp only [List.cons_append, starts_with, Bool.and_eq_true]
    exact ⟨h.1, starts_with_append ts ns y h.2⟩

/-- An occurrence within the first `n` bytes of a text is an occurrence in the
text. -/
theorem occurs_at_of_take (t d : List Byte) (n i : Nat)
    (h : occurs_at (t.take n) d i = true) : occurs_at t d i = true := by
  simp only [occurs_at] at h ⊢
  have h1 : (t.take n).drop i = (t.drop i).take (n - i) := List.drop_take _ _ _
  rw [h1] at h
  have h2 := starts_with_append _ d ((t.drop i).drop (n - i)) h
  rwa [List.take_append_drop] at h2

/-- There is always at least one segment. -/
theorem segments_ne_nil (s : List Byte) (dlen prev : Nat) (occ : List Nat) :
    segments s dlen prev occ ≠ [] := by
  cases occ <;> simp [segments]

/-- Joining a segment with further segments puts the delimiter between. -/
theorem join_with_cons (d a : List Byte) (rest : List (List Byte)) (h : rest ≠ []) :
    join_with d (a :: rest) = a ++ d ++ join_with d rest := by
  cases rest with
  | nil => exact absurd rfl h
  | cons b l => rfl

/-- The segments from offset `p` on join back to the text from `p` on, and
none of them contains the delimiter. -/
theorem segments_join (s d : List Byte) (hd : d ≠ []) : ∀ (n p : Nat), s.length - p ≤ n →
    join_with d (segments s d.length p (occurrences_from d (s.drop p) p 0)) = s.drop p ∧
    ∀ seg ∈ segments s d.length p (occurrences_from d (s.drop p) p 0),
      ∀ i, occurs_at seg d i = false := by
  intro n
  induction n with
  | zero =>
    intro p hp
    have hnil : s.drop p = [] := List.drop_eq_nil_of_le (by omega)
    have hnone : ∀ j, starts_with (([] : List Byte).drop j) d = false := by
      intro j
      cases hds : d with
      | nil => exact absurd hds hd
      | cons x xs => simp [starts_with]
    rw [hnil, occurrences_from_none d [] p hnone]
    simp only [segments, join_with, hnil, List.mem_singleton, forall_eq, true_and]
    intro i
    exact hnone i
  | succ n ih =>
    intro p hp
    rcases index_loop_spec d (s.drop p) p with ⟨_, hnone⟩ | ⟨j, _, hj, hocc, hmin⟩
    · rw [occurrences_from_none d _ p hnone]
      simp only [segments, join_with, List.mem_singleton, forall_eq, true_and]
      intro i
      exact hnone i
    · have hlen := starts_with_length _ _ hocc
      simp only [List.length_drop] at hlen hj
      have hpos : 0 < d.length := List.length_pos.mpr hd
      rw [occurrences_from_first d hd (s.drop p) p j hocc hmin, List.drop_drop]
      have hpj : p + (j + d.length) = p + j + d.length := by omega
      rw [hpj]
      obtain ⟨ihj, ihf⟩ := ih (p + j + d.length) (by omega)
      have hsub : p + j - p = j := by omega
      simp only [segments, hsub]
      constructor
      · rw [join_with_cons _ _ _ (segments_ne_nil _ _ _ _), ihj]
        have htake := starts_with_eq_take _ _ hocc
        have h1 : s.drop (p + j + d.length) = ((s.drop p).drop j).drop d.length := by
          rw [List.drop_drop, List.drop_drop]
          congr 1
          omega
        have e2 : d ++ ((s.drop p).drop j).drop d.length = (s.drop p).drop j := by
          have h2 := List.take_append_drop d.length ((s.drop p).drop j)
          rw [htake] at h2
          exact h2
        rw [h1, List.append_assoc, e2, List.take_append_drop]
      · intro seg hseg i
        rcases List.mem_cons.mp hseg with h | h
        · rw [h]
          cases hc : occurs_at ((s.drop p).take j) d i with
          | false => rfl
          | true =>
            exfalso
            have hfull := occurs_at_of_take _ _ _ _ hc
            have hl := starts_with_length _ _ hc
            simp only [List.length_drop, List.length_take] at hl
            have hij : i < j := by omega
            have := hmin i hij
            simp only [occurs_at] at hfull
            rw [hfull] at this
            exact absurd this (by simp)
        · exact ihf seg h i

/-- C23: for a non-empty string and a non-empty literal delimiter,
`String_split` returns (with fuel for one iteration per byte) segments that,
joined with the delimiter between consecutive ones, give back the string, and
none of which contains the delimiter. -/
theorem String_split_join (env : Env) (self splitter : StringValue) (fuel : Nat)
    (hs : self.str ≠ []) (hd : splitter.str ≠ []) (hfuel : self.length ≤ fuel) :
    ∃ parts : List StringValue,
      String_split fuel env self (.string splitter) =
        some (.ok (.array (parts.map Value.string))) ∧
      join_with splitter.str (parts.map StringValue.str) = self.str ∧
      ∀ part ∈ parts, ∀ i, occurs_at part.str splitter.str i = false := by
  have hlen : self.length ≠ 0 := by
    simp only [StringValue.length]
    exact fun h => hs (List.length_eq_zero.mp h)
  by_cases hidx : self.index splitter 0 = -1
  · refine ⟨[self.dup], ?_, rfl, ?_⟩
    · simp only [String_split, if_neg hlen, hidx, if_true, List.map_cons, List.map_nil]
    · intro part hpart i
      rw [List.mem_singleton.mp hpart]
      rcases index_loop_spec splitter.str (self.str.drop 0) 0 with ⟨_, hnone⟩ | ⟨k, hk, _, _, _⟩
      · simpa [occurs_at, StringValue.dup] using hnone i
      · exfalso
        have : self.index splitter 0 = ((0 + k : Nat) : Int) := hk
        rw [this] at hidx
        omega
  · have hloop := String_split_string_loop_eq env self splitter hd fuel 0 [] hidx
      (by simp only [StringValue.length] at hfuel; omega)
    obtain ⟨hjoin, hfree⟩ := segments_join self.str splitter.str hd self.str.length 0 (by omega)
    simp only [List.drop_zero] at hjoin hfree hloop
    refine ⟨(segments self.str splitter.str.length 0
      (occurrences_from splitter.str self.str 0 0)).map (StringValue.new env), ?_, ?_, ?_⟩
    · simp only [String_split, if_neg hlen, if_neg hidx]
      simp only [Nat.cast_zero, List.nil_append] at hloop
      rw [hloop]
      simp only [Option.map_some', List.map_map]
      rfl
    · simp only [List.map_map]
      have hid : (StringValue.str ∘ StringValue.new env) = id := rfl
      rw [hid, List.map_id]
      exact hjoin
    · intro part hpart i
      obtain ⟨seg, hseg, rfl⟩ := List.mem_map.mp hpart
      exact hfree seg hseg i

/-- C23, on `"a,b,"` split by `","`: the segments `"a"`, `"b"`, `""` join back
to `"a,b,"`. -/
theorem String_split_join_sample :
    ∃ parts : List StringValue,
      String_split 4 sample_env ⟨ascii "a,b,", .UTF_8⟩ (.string ⟨ascii ",", .UTF_8⟩) =
        some (.ok (.array (parts.map Value.string))) ∧
      join_with (ascii ",") (parts.map StringValue.str) = ascii "a,b," ∧
      ∀ part ∈ parts, ∀ i, occurs_at part.str (ascii ",") i = false :=
  String_split_join sample_env ⟨ascii "a,b,", .UTF_8⟩ ⟨ascii ",", .UTF_8⟩ 4 (by decide)
    (by decide) (by decide)

/-! ## Termination of `String_split` and `String_ljust` -/

/-- With the empty delimiter the loop of the literal branch of `String_split`
finds the delimiter at `last_index` itself and never leaves it: no amount of
fuel is enough. -/
theorem String_split_string_loop_empty (env : Env) (self : StringValue) (enc : Encoding) :
    ∀ (fuel : Nat) (last : Nat) (ary : List Value),
      String_split_string_loop env self ⟨[], enc⟩ fuel (last : Int) (last : Int) ary = none
  | 0, _, _ => rfl
  | fuel + 1, last, ary => by
    have hidx : self.index ⟨[], enc⟩ last = (last : Int) := by
      simp only [StringValue.index]
      cases self.str.drop last <;> simp [index_loop, starts_with]
    rw [String_split_string_loop]
    simp only [StringValue.length, List.length_nil, Nat.cast_zero, add_zero, Int.toNat_ofNat,
      hidx]
    have hne : (last : Int) ≠ -1 := by omega
    rw [if_pos hne]
    exact String_split_string_loop_empty env self enc fuel last _

/-- With a pattern that matches the empty text at the start offset the loop of
the pattern branch of `String_split` never advances. -/
theorem String_split_regexp_loop_empty (env : Env) (self : StringValue) :
    ∀ (fuel : Nat) (last : Nat) (ary : List Value),
      String_split_regexp_loop env self empty_matching fuel (last : Int)
        ⟨[(last : Int)], [(last : Int)]⟩ ary = none
  | 0, _, _ => rfl
  | fuel + 1, last, ary => by
    rw [String_split_regexp_loop]
    simp only [List.getD_cons_zero, sub_self, add_zero, Int.toNat_ofNat, empty_matching]
    exact String_split_regexp_loop_empty env self fuel last _

/-- `String_split` of a non-empty string by the empty literal delimiter, and
by a pattern that matches the empty text, is still running after any number of
iterations. -/
theorem String_split_never_ends (fuel : Nat) (env : Env) (self : StringValue)
    (enc : Encoding) (hs : self.str ≠ []) :
    String_split fuel env self (.string ⟨[], enc⟩) = none ∧
    String_split fuel env self (.regexp empty_matching) = none := by
  have hlen : self.length ≠ 0 := by
    simp only [StringValue.length]
    exact fun h => hs (List.length_eq_zero.mp h)
  constructor
  · have hidx : self.index ⟨[], enc⟩ 0 = ((0 : Nat) : Int) := by
      simp only [StringValue.index, List.drop_zero]
      cases self.str <;> simp [index_loop, starts_with]
    simp only [String_split, if_neg hlen, hidx]
    have h := String_split_string_loop_empty env self enc fuel 0 []
    simp only [Nat.cast_zero] at h ⊢
    simp [h]
  · have h := String_split_regexp_loop_empty env self fuel 0 []
    simp only [Nat.cast_zero] at h
    simp only [String_split, if_neg hlen, empty_matching]
    simp only [empty_matching] at h
    simp [h]

/-- C24: `"hello".split("")`, and `"hello".split` by a pattern that matches the
empty text, are still running after `fuel` iterations, for every `fuel`:
`last_index` does not increase. -/
theorem String_split_empty_delimiter (fuel : Nat) :
    String_split fuel sample_env hello (.string ⟨[], .UTF_8⟩) = none ∧
    String_split fuel sample_env hello (.regexp empty_matching) = none :=
  String_split_never_ends fuel sample_env hello .UTF_8 (by decide)

/-- With the empty pad string the loop of `String_ljust` appends nothing and
never reaches the target length. -/
theorem String_ljust_loop_empty (length : Nat) (enc : Encoding) :
    ∀ (fuel : Nat) (copy : StringValue), copy.length < length →
      String_ljust_loop length ⟨[], enc⟩ fuel copy = none
  | 0, copy, h => by simp only [String_ljust_loop, if_pos h]
  | fuel + 1, copy, h => by
    have hnot : decide (copy.length + (⟨[], enc⟩ : StringValue).length > length) = false := by
      simp only [StringValue.length, List.length_nil, add_zero, decide_eq_false_iff_not]
      simp only [StringValue.length] at h
      omega
    have hcopy : copy.append_string ⟨[], enc⟩ = copy := by
      simp [StringValue.append_string]
    rw [String_ljust_loop, if_pos h]
    simp only [hnot, hcopy, Bool.false_eq_true, if_false]
    exact String_ljust_loop_empty length enc fuel copy h

/-- C26: `"hello".ljust(8, "")` is still running after `fuel` iterations, for
every `fuel`. -/
theorem String_ljust_empty_pad (fuel : Nat) :
    String_ljust fuel sample_env hello (.integer 8) (some (.string ⟨[], .UTF_8⟩)) = none := by
  have h := String_ljust_loop_empty 8 .UTF_8 fuel hello.dup (by decide)
  simp only [String_ljust]
  have h8 : (if (8 : Int) < 0 then 0 else (8 : Int).toNat) = 8 := by decide
  rw [h8, h]
  rfl

/-! ## `String_encode`, continued -/

/-- C27: no call of `String_encode` raises ConverterNotFoundError: the two
encodings leave no pair for the last branch. -/
theorem String_encode_converter_found (env : Env) (self : StringValue) (arg : Value) :
    (String_encode env self arg).2 ≠ .raise .ConverterNotFoundError := by
  obtain ⟨str, enc⟩ := self
  rcases String_force_encoding_cases env ⟨str, enc⟩ arg with ⟨e, _, hfe⟩ | ⟨cls, hfe⟩ | hfe
  · simp only [String_encode, StringValue.dup, hfe, StringValue.set_encoding, String_encode_loop_eq]
    cases enc <;> cases e.num <;> simp
    split_ifs <;> simp
  · have hcls : cls ≠ .ConverterNotFoundError := by
      intro hc
      subst hc
      cases arg with
      | string name =>
        simp only [String_force_encoding] at hfe
        cases hf : find_encoding_by_name env name.str with
        | ok e => simp [hf] at hfe
        | raise c =>
          simp only [hf, Prod.mk.injEq, Result.raise.injEq, true_and] at hfe
          subst hfe
          simp only [find_encoding_by_name] at hf
          split at hf <;> simp at hf
        | crash => simp [hf] at hfe
      | encoding e => simp [String_force_encoding] at hfe
      | _ => simp [String_force_encoding] at hfe
    simp only [String_encode, StringValue.dup, hfe]
    simpa using hcls
  · simp only [String_encode, StringValue.dup, hfe]
    simp

/-! ## `IntegerValue`, continued -/

/-- C28 as stated fails: `abs` of `-2^63` is the product `-1 * -2^63` modulo
`2^64`, which is `-2^63` again, a negative value. -/
theorem IntegerValue_abs_int64_min :
    IntegerValue.abs sample_env INT64_MIN = .ok (.integer INT64_MIN) ∧ INT64_MIN < 0 := by
  constructor
  · rfl
  · decide

/-- C28, amended: for every 64-bit signed integer `n` other than `-2^63` the
value returned by `abs` is `≥ 0` and equals `n` or `-n`; for `n = -2^63` it is
`n`. -/
theorem IntegerValue_abs_spec (env : Env) (n : Int) (hlo : INT64_MIN ≤ n) (hhi : n ≤ INT64_MAX) :
    ∃ r : Int, IntegerValue.abs env n = .ok (.integer r) ∧ (r = n ∨ r = -n) ∧
      (n ≠ INT64_MIN → 0 ≤ r) := by
  simp only [INT64_MIN, INT64_MAX] at hlo hhi
  by_cases h : n < 0
  · refine ⟨wrap64 (-1 * n), ?_, ?_, ?_⟩
    · simp only [IntegerValue.abs, if_pos h]
    · simp only [wrap64]
      omega
    · intro hne
      simp only [INT64_MIN] at hne
      simp only [wrap64]
      omega
  · refine ⟨n, ?_, Or.inl rfl, fun _ => by omega⟩
    simp only [IntegerValue.abs, if_neg h]

/-- C28, amended, on `-5`: `abs` returns a value `≥ 0` that is `-5` or `5`. -/
theorem IntegerValue_abs_spec_sample :
    ∃ r : Int, IntegerValue.abs sample_env (-5) = .ok (.integer r) ∧ (r = -5 ∨ r = -(-5)) ∧
      ((-5 : Int) ≠ INT64_MIN → 0 ≤ r) :=
  IntegerValue_abs_spec sample_env (-5) (by decide) (by decide)

/-- The remainder of a negated dividend is the negated remainder. -/
theorem neg_tmod (a b : Int) : (-a).tmod b = -(a.tmod b) := by
  rw [Int.tmod_def, Int.neg_tdiv, Int.tmod_def]
  ring

/-- The truncating remainder has the sign of the dividend and the magnitude of
the remainder of the magnitudes. -/
theorem tmod_sign_natAbs (a b : Int) :
    Int.tmod a b = Int.sign a * ((a.natAbs % b.natAbs : Nat) : Int) := by
  rcases Int.natAbs_eq a with ha | ha <;> rcases Int.natAbs_eq b with hb | hb
  all_goals
    generalize a.natAbs = m at ha
    generalize b.natAbs = n at hb
    subst ha hb
    rcases Nat.eq_zero_or_pos m with hm | hm
    · subst hm; simp
    · have hs : Int.sign (m : Int) = 1 := Int.sign_eq_one_of_pos (by omega)
      simp only [Int.tmod_neg, neg_tmod, Int.sign_neg, hs, Int.natAbs_neg, Int.natAbs_ofNat,
        Int.tmod_eq_emod (Int.ofNat_nonneg m) (Int.ofNat_nonneg n), Int.ofNat_emod, one_mul,
        neg_mul]

/-- The truncating quotient has the product of the signs and the magnitude of
the quotient of the magnitudes. -/
theorem tdiv_sign_natAbs (a b : Int) :
    Int.tdiv a b = Int.sign a * Int.sign b * ((a.natAbs / b.natAbs : Nat) : Int) := by
  rcases Int.natAbs_eq a with ha | ha <;> rcases Int.natAbs_eq b with hb | hb
  all_goals
    generalize a.natAbs = m at ha
    generalize b.natAbs = n at hb
    subst ha hb
    rcases Nat.eq_zero_or_pos m with hm | hm
    · subst hm; simp
    · rcases Nat.eq_zero_or_pos n with hn | hn
      · subst hn; simp
      · have hs : Int.sign (m : Int) = 1 := Int.sign_eq_one_of_pos (by omega)
        have hs' : Int.sign (n : Int) = 1 := Int.sign_eq_one_of_pos (by omega)
        simp only [Int.tdiv_neg, Int.neg_tdiv, Int.sign_neg, hs, hs', Int.natAbs_neg,
          Int.natAbs_ofNat, Int.tdiv_eq_ediv (Int.ofNat_nonneg m) (Int.ofNat_nonneg n),
          Int.ofNat_ediv, one_mul, neg_mul, mul_neg, neg_neg, mul_one]

/-- C29: for `b ≠ 0` and not (`a = -2^63` and `b = -1`), `IntegerValue::div`
returns a quotient `q` and `IntegerValue::mod` a remainder `r` with
`a = q * b + r`, `|r| < |b|`, `q` the quotient of the magnitudes with the
product of the signs (truncation toward zero), and `r` zero or of the sign of
`a`. -/
theorem IntegerValue_div_mod_consistent (env : Env) (a b : Int) (hb : b ≠ 0)
    (hex : ¬ (a = INT64_MIN ∧ b = -1)) :
    ∃ q r : Int, IntegerValue.div env a (.integer b) = .ok (.integer q) ∧
      IntegerValue.mod env a (.integer b) = .ok (.integer r) ∧
      a = q * b + r ∧ r.natAbs < b.natAbs ∧
      q = Int.sign a * Int.sign b * ((a.natAbs / b.natAbs : Nat) : Int) ∧
      (r = 0 ∨ Int.sign r = Int.sign a) := by
  refine ⟨Int.tdiv a b, Int.tmod a b, ?_, ?_, ?_, ?_, tdiv_sign_natAbs a b, ?_⟩
  · simp only [IntegerValue.div, if_neg hb, if_neg hex]
  · simp only [IntegerValue.mod, if_neg hb, if_neg hex]
  · exact (Int.tdiv_add_tmod' a b).symm
  · have hpos : 0 < b.natAbs := Int.natAbs_pos.mpr hb
    have hlt := Nat.mod_lt a.natAbs hpos
    rw [tmod_sign_natAbs, Int.natAbs_mul, Int.natAbs_ofNat]
    have hs : (Int.sign a).natAbs ≤ 1 := by
      rcases lt_trichotomy a 0 with h | h | h
      · simp [Int.sign_eq_neg_one_of_neg h]
      · simp [h]
      · simp [Int.sign_eq_one_of_pos h]
    calc (Int.sign a).natAbs * (a.natAbs % b.natAbs)
        ≤ 1 * (a.natAbs % b.natAbs) := Nat.mul_le_mul_right _ hs
      _ = a.natAbs % b.natAbs := Nat.one_mul _
      _ < b.natAbs := hlt
  · rw [tmod_sign_natAbs]
    rcases Nat.eq_zero_or_pos (a.natAbs % b.natAbs) with h | h
    · left
      simp [h]
    · right
      have hk : Int.sign ((a.natAbs % b.natAbs : Nat) : Int) = 1 :=
        Int.sign_eq_one_of_pos (by omega)
      rw [Int.sign_mul, Int.sign_sign, hk, mul_one]

/-- C29, on `-7` and `2` (quotient `-3`, remainder `-1`). -/
theorem IntegerValue_div_mod_consistent_sample :
    ∃ q r : Int, IntegerValue.div sample_env (-7) (.integer 2) = .ok (.integer q) ∧
      IntegerValue.mod sample_env (-7) (.integer 2) = .ok (.integer r) ∧
      (-7 : Int) = q * 2 + r ∧ r.natAbs < (2 : Int).natAbs ∧
      q = Int.sign (-7) * Int.sign 2 * (((-7 : Int).natAbs / (2 : Int).natAbs : Nat) : Int) ∧
      (r = 0 ∨ Int.sign r = Int.sign (-7)) :=
  IntegerValue_div_mod_consistent sample_env (-7) 2 (by decide) (by decide)

/-! ## `String_ljust` at byte level -/

/-- Truncation keeps the bytes before the cut. -/
theorem getD_take_of_lt (l : List Byte) (m j : Nat) (h : j < m) :
    (l.take m).getD j 0 = l.getD j 0 := by
  simp only [List.getD_eq_getElem?_getD, List.getElem?_take_of_lt h]

/-- The loop of `String_ljust` ends at once on a buffer that has reached the
target length. -/
theorem String_ljust_loop_done (length : Nat) (padstr copy : StringValue) (fuel : Nat)
    (h : ¬ copy.length < length) : String_ljust_loop length padstr fuel copy = some copy := by
  cases fuel <;> simp only [String_ljust_loop, if_neg h]

/-- The loop of `String_ljust`, started on the receiver followed by whole
copies of a non-empty pad string, ends within one iteration per missing byte
on a buffer of `max(length, n)` bytes: the receiver, then the pad string
repeated cyclically. -/
theorem String_ljust_loop_bytes (s : List Byte) (length : Nat) (padstr : StringValue)
    (hpad : padstr.str ≠ []) : ∀ (fuel : Nat) (copy : StringValue) (q : Nat),
    copy.str.length = s.length + q * padstr.str.length → copy.str.take s.length = s →
    (∀ j, s.length ≤ j → j < copy.str.length →
      copy.str.getD j 0 = padstr.str.getD ((j - s.length) % padstr.str.length) 0) →
    length - copy.str.length ≤ fuel →
    ∃ r, String_ljust_loop length padstr fuel copy = some r ∧
      r.str.length = max length copy.str.length ∧ r.str.take s.length = s ∧
      r.encoding = copy.encoding ∧
      ∀ j, s.length ≤ j → j < r.str.length →
        r.str.getD j 0 = padstr.str.getD ((j - s.length) % padstr.str.length) 0 := by
  have hpos : 0 < padstr.str.length := List.length_pos.mpr hpad
  intro fuel
  induction fuel with
  | zero =>
    intro copy q hlen htake hget hfuel
    have hdone : ¬ copy.length < length := by
      simp only [StringValue.length]
      omega
    exact ⟨copy, String_ljust_loop_done _ _ _ _ hdone, by omega, htake, rfl, hget⟩
  | succ fuel ih =>
    intro copy q hlen htake hget hfuel
    by_cases hlt : copy.length < length
    · have hlt' : copy.str.length < length := hlt
      have happ_take : (copy.str ++ padstr.str).take s.length = s := by
        rw [List.take_append_of_le_length (by omega)]
        exact htake
      have happ_get : ∀ j, s.length ≤ j → j < (copy.str ++ padstr.str).length →
          (copy.str ++ padstr.str).getD j 0
            = padstr.str.getD ((j - s.length) % padstr.str.length) 0 := by
        intro j hj1 hj2
        simp only [List.length_append] at hj2
        by_cases hjc : j < copy.str.length
        · rw [List.getD_append _ _ _ _ hjc]
          exact hget j hj1 hjc
        · rw [List.getD_append_right _ _ _ _ (by omega)]
          have hmod : (j - s.length) % padstr.str.length = j - copy.str.length := by
            have e : j - s.length = (j - copy.str.length) + q * padstr.str.length := by omega
            rw [e, Nat.add_mul_mod_self_right, Nat.mod_eq_of_lt (by omega)]
          rw [hmod]
      rw [String_ljust_loop, if_pos hlt]
      by_cases htr : copy.length + padstr.length > length
      · have htr' : copy.str.length + padstr.str.length > length := htr
        simp only [htr, decide_True, if_true, StringValue.append_string, StringValue.truncate]
        have hdone : ¬ StringValue.length ⟨(copy.str ++ padstr.str).take length, copy.encoding⟩
            < length := by
          simp only [StringValue.length, List.length_take, List.length_append]
          omega
        refine ⟨_, String_ljust_loop_done _ _ _ _ hdone, ?_, ?_, rfl, ?_⟩
        · simp only [List.length_take, List.length_append]
          omega
        · simp only
          rw [List.take_take, Nat.min_eq_left (by omega)]
          exact happ_take
        · intro j hj1 hj2
          simp only [List.length_take, List.length_append] at hj2
          simp only
          rw [getD_take_of_lt _ _ _ (by omega)]
          exact happ_get j hj1 (by simp only [List.length_append]; omega)
      · have htr' : ¬ copy.str.length + padstr.str.length > length := htr
        simp only [htr, decide_False, Bool.false_eq_true, if_false, StringValue.append_string]
        obtain ⟨r, hr, hl, ht, he, hg⟩ := ih ⟨copy.str ++ padstr.str, copy.encoding⟩ (q + 1)
          (by simp only [List.length_append]; rw [hlen, Nat.add_mul]; omega)
          happ_take happ_get (by simp only [List.length_append]; omega)
        refine ⟨r, hr, ?_, ht, he, hg⟩
        simp only [List.length_append] at hl
        omega
    · exact ⟨copy, String_ljust_loop_done _ _ _ _ hlt, by
        simp only [StringValue.length] at hlt; omega, htake, rfl, hget⟩

/-- C25: `String_ljust` at byte level.  For every string `self` of `n` bytes,
every target `t` (a negative target counts as `0`) and every non-empty pad
string of `k` bytes, the method returns (within `t` iterations of its loop) a
string of exactly `max(n, t)` bytes whose first `n` bytes are `self` and whose
byte at every position `j` with `n ≤ j < max(n, t)` is byte `(j - n) mod k` of
the pad string.  The loop writes to the duplicate of the receiver only: the
receiver and the pad string are the unchanged values on the right-hand
sides. -/
theorem String_ljust_bytes (fuel : Nat) (env : Env) (self padstr : StringValue) (t : Int)
    (hpad : padstr.str ≠ []) (hfuel : t.toNat ≤ fuel) :
    ∃ r : StringValue,
      String_ljust fuel env self (.integer t) (some (.string padstr)) = some (.ok (.string r)) ∧
      r.str.length = max self.str.length t.toNat ∧
      r.str.take self.str.length = self.str ∧
      ∀ j, self.str.length ≤ j → j < max self.str.length t.toNat →
        r.str.getD j 0 = padstr.str.getD ((j - self.str.length) % padstr.str.length) 0 := by
  have hlength : (if t < 0 then 0 else t.toNat) = t.toNat := by
    split_ifs with h
    · omega
    · rfl
  obtain ⟨r, hr, hl, ht, _, hg⟩ := String_ljust_loop_bytes self.str t.toNat padstr hpad fuel
    self.dup 0 (by simp only [StringValue.dup]; omega)
    (by simp only [StringValue.dup, List.take_length])
    (by
      intro j hj1 hj2
      simp only [StringValue.dup] at hj2
      omega)
    (by omega)
  simp only [StringValue.dup] at hl
  refine ⟨r, ?_, by omega, ht, ?_⟩
  · simp only [String_ljust, hlength, hr, Option.map_some']
  · intro j hj1 hj2
    exact hg j hj1 (by omega)

/-- C25 at `"ab".ljust(7, "123")`: the result has 7 bytes, begins with `"ab"`
and continues with `"12312"`. -/
theorem String_ljust_bytes_sample :
    ∃ r : StringValue,
      String_ljust 7 sample_env ⟨ascii "ab", .UTF_8⟩ (.integer 7)
        (some (.string ⟨ascii "123", .UTF_8⟩)) = some (.ok (.string r)) ∧
      r.str.length = max (ascii "ab").length (7 : Int).toNat ∧
      r.str.take (ascii "ab").length = ascii "ab" ∧
      ∀ j, (ascii "ab").length ≤ j → j < max (ascii "ab").length (7 : Int).toNat →
        r.str.getD j 0 = (ascii "123").getD ((j - (ascii "ab").length) % (ascii "123").length) 0 :=
  String_ljust_bytes 7 sample_env ⟨ascii "ab", .UTF_8⟩ ⟨ascii "123", .UTF_8⟩ 7
    (by decide) (by decide)

end Natalie
